import Mathlib

/-!
Verification of the grayt ray-tracing renderer.

Each Rust source construct is shallowly embedded in Lean:
- `f64` values in ideal (exact) arithmetic are modelled by `ℚ`; special
  IEEE values, where a claim depends on them, are modelled by the
  inductive `F` (finite rational, +inf, -inf, NaN) with the IEEE rules for
  the operations the code uses;
- fallible lookups return `Option`;
- the thread-local random generator is threaded explicitly as oracle
  streams (one stream per sampling helper of the source), which is the
  refactoring the spec itself prescribes for reproducibility.
-/

set_option maxHeartbeats 1600000

namespace Grayt

/-! ## Perlin noise tables (src/perlin.rs)

`POINT_COUNT`, `shuffle`, `Perlin::new` and `Perlin::int_noise` modelled
over `Nat` indices.  The gradient-vector element type is a parameter `V`
(the source uses `DVec3`; the indexing claims do not depend on it).
The random source is threaded as oracle streams: `randomVec` for the
`ranvec` samples, and `tx ty tz : ℕ → ℕ` giving the `rng.gen_range(0..=i)`
draw used by `shuffle` at index `i` (the source guarantees the draw is
`≤ i`; our `listSwap` is a no-op on an out-of-range index, which is
unreachable under that contract). -/

def POINT_COUNT : ℕ := 256

/-- Model of `slice::swap(i, j)`: exchange the elements at `i` and `j`.
Out-of-bounds indices (a panic in Rust, unreachable in `shuffle`) leave
the list unchanged. -/
def listSwap {α : Type} (l : List α) (i j : ℕ) : List α :=
  match l[i]?, l[j]? with
  | some a, some b => (l.set i b).set j a
  | _, _ => l

/-- Model of `shuffle` (src/perlin.rs lines 71-76): Fisher-Yates over
`i in (1..POINT_COUNT).rev()`, swapping `i` with the drawn target. -/
def shuffle {α : Type} (items : List α) (targets : ℕ → ℕ) : List α :=
  ((List.range' 1 (POINT_COUNT - 1)).reverse).foldl
    (fun l i => listSwap l i (targets i)) items

/-- Model of the `Perlin` struct (src/perlin.rs lines 8-14). -/
structure Perlin (V : Type) where
  ranvec : List V
  perm_x : List ℕ
  perm_y : List ℕ
  perm_z : List ℕ

/-- Model of `Perlin::new` (src/perlin.rs lines 17-40): 256 gradient
samples and three shuffled copies of `0..256`. -/
def Perlin.new {V : Type} (randomVec : ℕ → V) (tx ty tz : ℕ → ℕ) : Perlin V :=
  { ranvec := (List.range POINT_COUNT).map randomVec
    perm_x := shuffle (List.range POINT_COUNT) tx
    perm_y := shuffle (List.range POINT_COUNT) ty
    perm_z := shuffle (List.range POINT_COUNT) tz }

/-- `IVec3::as_uvec3` on one lane: reinterpret an `i32` cell coordinate
as a `u32` (two's complement, i.e. reduction mod `2^32`). -/
def asU32 (i : ℤ) : ℕ := (i % (2 : ℤ) ^ 32).toNat

/-- Model of `Perlin::int_noise` (src/perlin.rs lines 63-68) with every
table access checked: returns `none` exactly when an index is out of
bounds (an out-of-bounds panic in Rust). -/
def Perlin.int_noise {V : Type} (p : Perlin V) (idx : ℤ × ℤ × ℤ) : Option V := do
  let px ← p.perm_x[asU32 idx.1 % POINT_COUNT]?
  let py ← p.perm_y[asU32 idx.2.1 % POINT_COUNT]?
  let pz ← p.perm_z[asU32 idx.2.2 % POINT_COUNT]?
  p.ranvec[(px ^^^ py) ^^^ pz]?

/-! Permutation facts about `listSwap` and `shuffle`. -/

theorem cons_set_perm {α : Type} :
    ∀ (xs : List α) (k : ℕ) (b x : α), xs[k]? = some b →
      (b :: xs.set k x).Perm (x :: xs) := by
  intro xs
  induction xs with
  | nil => intro k b x h; simp at h
  | cons c rest ih =>
    intro k b x h
    cases k with
    | zero =>
      simp only [List.getElem?_cons_zero, Option.some.injEq] at h
      subst h
      simpa [List.set] using List.Perm.swap x c rest
    | succ k =>
      simp only [List.getElem?_cons_succ] at h
      have h1 : (b :: c :: rest.set k x).Perm (c :: b :: rest.set k x) :=
        List.Perm.swap c b _
      have h2 : (c :: b :: rest.set k x).Perm (c :: x :: rest) :=
        List.Perm.cons c (ih k b x h)
      have h3 : (c :: x :: rest).Perm (x :: c :: rest) := List.Perm.swap x c rest
      simpa [List.set] using (h1.trans h2).trans h3

theorem listSwap_perm {α : Type} :
    ∀ (l : List α) (i j : ℕ), (listSwap l i j).Perm l := by
  intro l
  induction l with
  | nil => intro i j; simp [listSwap]
  | cons x xs ih =>
    intro i j
    cases i with
    | zero =>
      cases j with
      | zero => simp [listSwap, List.set]
      | succ k =>
        unfold listSwap
        cases h : xs[k]? with
        | none => simp [h]
        | some b =>
          simp only [List.getElem?_cons_zero, List.getElem?_cons_succ, h,
            List.set_cons_zero, List.set_cons_succ]
          exact cons_set_perm xs k b x h
    | succ m =>
      cases j with
      | zero =>
        unfold listSwap
        cases h : xs[m]? with
        | none => simp [h]
        | some a =>
          simp only [List.getElem?_cons_succ, List.getElem?_cons_zero, h,
            List.set_cons_zero, List.set_cons_succ]
          exact cons_set_perm xs m a x h
      | succ k =>
        unfold listSwap
        cases hm : xs[m]? with
        | none => simp [hm]
        | some a =>
          cases hk : xs[k]? with
          | none => simp [hm, hk]
          | some b =>
            simp only [List.getElem?_cons_succ, hm, hk, List.set_cons_succ]
            have := ih m k
            unfold listSwap at this
            rw [hm, hk] at this
            exact List.Perm.cons x this

theorem shuffle_perm {α : Type} (items : List α) (targets : ℕ → ℕ) :
    (shuffle items targets).Perm items := by
  unfold shuffle
  generalize (List.range' 1 (POINT_COUNT - 1)).reverse = is
  induction is generalizing items with
  | nil => simp
  | cons i is ih =>
    simp only [List.foldl_cons]
    exact (ih (listSwap items i (targets i))).trans (listSwap_perm items i (targets i))

theorem shuffle_range_mem_lt (targets : ℕ → ℕ) {x : ℕ}
    (hx : x ∈ shuffle (List.range POINT_COUNT) targets) : x < POINT_COUNT :=
  List.mem_range.mp ((shuffle_perm _ targets).subset hx)

theorem shuffle_range_length (targets : ℕ → ℕ) :
    (shuffle (List.range POINT_COUNT) targets).length = POINT_COUNT := by
  simpa using (shuffle_perm (List.range POINT_COUNT) targets).length_eq

theorem xor_lt_256 {a b : ℕ} (ha : a < 256) (hb : b < 256) : a ^^^ b < 256 := by
  have : a ^^^ b < 2 ^ 8 := Nat.bitwise_lt (by simpa using ha) (by simpa using hb)
  simpa using this

theorem isSome_of_lt_length {α : Type} (l : List α) (i : ℕ) (h : i < l.length) :
    (l[i]?).isSome = true := by
  rw [List.getElem?_eq_getElem h]; rfl

/-- C10: `Perlin::int_noise` never indexes out of bounds: for every
query cell (negative coordinates included) and every random stream, the
three permutation lookups and the final `ranvec` access all succeed,
because each shuffled table is a permutation of `0..256`, the reduced
cell indices are below 256, and the XOR of three values below 256 is
below `256 = 2^8`. -/
theorem int_noise_in_bounds {V : Type} (randomVec : ℕ → V) (tx ty tz : ℕ → ℕ)
    (idx : ℤ × ℤ × ℤ) :
    ((Perlin.new randomVec tx ty tz).int_noise idx).isSome = true := by
  have hmod : ∀ i : ℤ, asU32 i % POINT_COUNT < POINT_COUNT :=
    fun i => Nat.mod_lt _ (by norm_num [POINT_COUNT])
  have hx : asU32 idx.1 % POINT_COUNT < (shuffle (List.range POINT_COUNT) tx).length := by
    rw [shuffle_range_length]; exact hmod _
  have hy : asU32 idx.2.1 % POINT_COUNT < (shuffle (List.range POINT_COUNT) ty).length := by
    rw [shuffle_range_length]; exact hmod _
  have hz : asU32 idx.2.2 % POINT_COUNT < (shuffle (List.range POINT_COUNT) tz).length := by
    rw [shuffle_range_length]; exact hmod _
  unfold Perlin.int_noise Perlin.new
  dsimp only
  rw [List.getElem?_eq_getElem hx, List.getElem?_eq_getElem hy,
    List.getElem?_eq_getElem hz]
  simp only [Option.bind_eq_bind, Option.some_bind]
  refine isSome_of_lt_length _ _ ?_
  rw [List.length_map, List.length_range]
  exact xor_lt_256
    (xor_lt_256 (shuffle_range_mem_lt tx (List.getElem_mem hx))
      (shuffle_range_mem_lt ty (List.getElem_mem hy)))
    (shuffle_range_mem_lt tz (List.getElem_mem hz))

/-! ## IEEE-style `f64` scalar model

For the claims that depend on special IEEE values (NaN from `0.0/0.0`,
infinities from division by zero, the NaN-ignoring `f64::min`/`max`,
and the partial order), `f64` is modelled by `F`: a finite rational, the
two infinities, or NaN (a single NaN value; the sign of zero and
overflow of finite arithmetic are not modelled, and neither matters for
the operations exercised here). -/

inductive F : Type
  | fin (q : ℚ)
  | inf
  | neginf
  | nan
deriving DecidableEq

namespace F

def isNan : F → Bool
  | nan => true
  | _ => false

/-- `f64::is_finite`. -/
def isFinite : F → Bool
  | fin _ => true
  | _ => false

def neg : F → F
  | fin q => fin (-q)
  | inf => neginf
  | neginf => inf
  | nan => nan

def add : F → F → F
  | nan, _ => nan
  | _, nan => nan
  | fin a, fin b => fin (a + b)
  | fin _, inf => inf
  | fin _, neginf => neginf
  | inf, fin _ => inf
  | neginf, fin _ => neginf
  | inf, inf => inf
  | neginf, neginf => neginf
  | inf, neginf => nan
  | neginf, inf => nan

def sub (a b : F) : F := add a (neg b)

def mul : F → F → F
  | nan, _ => nan
  | _, nan => nan
  | fin a, fin b => fin (a * b)
  | fin a, inf => if a = 0 then nan else if 0 < a then inf else neginf
  | fin a, neginf => if a = 0 then nan else if 0 < a then neginf else inf
  | inf, fin b => if b = 0 then nan else if 0 < b then inf else neginf
  | neginf, fin b => if b = 0 then nan else if 0 < b then neginf else inf
  | inf, inf => inf
  | neginf, neginf => inf
  | inf, neginf => neginf
  | neginf, inf => neginf

def div : F → F → F
  | nan, _ => nan
  | _, nan => nan
  | fin a, fin b =>
      if b = 0 then (if a = 0 then nan else if 0 < a then inf else neginf)
      else fin (a / b)
  | fin _, inf => fin 0
  | fin _, neginf => fin 0
  | inf, fin b => if 0 ≤ b then inf else neginf
  | neginf, fin b => if 0 ≤ b then neginf else inf
  | inf, inf => nan
  | inf, neginf => nan
  | neginf, inf => nan
  | neginf, neginf => nan

/-- IEEE `<`: false whenever either side is NaN. -/
def lt : F → F → Bool
  | fin a, fin b => a < b
  | fin _, inf => true
  | neginf, fin _ => true
  | neginf, inf => true
  | _, _ => false

/-- IEEE `≤`: false whenever either side is NaN. -/
def le : F → F → Bool
  | fin a, fin b => a ≤ b
  | fin _, inf => true
  | neginf, fin _ => true
  | neginf, inf => true
  | inf, inf => true
  | neginf, neginf => true
  | _, _ => false

/-- `f64::min`: if one argument is NaN the other is returned. -/
def fmin (a b : F) : F :=
  if a.isNan then b else if b.isNan then a else if le a b then a else b

/-- `f64::max`: if one argument is NaN the other is returned. -/
def fmax (a b : F) : F :=
  if a.isNan then b else if b.isNan then a else if le b a then a else b

/-- `f64::partial_cmp`: `none` whenever either side is NaN. -/
def pcmp : F → F → Option Ordering
  | nan, _ => none
  | _, nan => none
  | fin a, fin b => some (compare a b)
  | fin _, inf => some .lt
  | fin _, neginf => some .gt
  | inf, fin _ => some .gt
  | neginf, fin _ => some .lt
  | inf, inf => some .eq
  | neginf, neginf => some .eq
  | inf, neginf => some .gt
  | neginf, inf => some .lt

/-- `f64::total_cmp` (used only as the `sort_by` key comparator; our
single NaN is ordered above `inf`, like IEEE positive NaN). -/
def totalCmp : F → F → Ordering
  | fin a, fin b => compare a b
  | fin _, inf => .lt
  | fin _, neginf => .gt
  | fin _, nan => .lt
  | inf, fin _ => .gt
  | neginf, fin _ => .lt
  | nan, fin _ => .gt
  | inf, inf => .eq
  | neginf, neginf => .eq
  | nan, nan => .eq
  | inf, neginf => .gt
  | neginf, inf => .lt
  | inf, nan => .lt
  | nan, inf => .gt
  | neginf, nan => .lt
  | nan, neginf => .gt

end F

/-! ## Vectors, rays, boxes and rectangles over `F` (src/ray.rs, src/hittable.rs) -/

/-- `glam::DVec3` componentwise over the IEEE-style scalars. -/
structure V3 : Type where
  x : F
  y : F
  z : F
deriving DecidableEq

/-- `glam::DVec2` over the IEEE-style scalars. -/
structure V2 : Type where
  x : F
  y : F
deriving DecidableEq

namespace V3

def add (a b : V3) : V3 := ⟨F.add a.x b.x, F.add a.y b.y, F.add a.z b.z⟩

def sub (a b : V3) : V3 := ⟨F.sub a.x b.x, F.sub a.y b.y, F.sub a.z b.z⟩

def cdiv (a b : V3) : V3 := ⟨F.div a.x b.x, F.div a.y b.y, F.div a.z b.z⟩

def smul (a : V3) (t : F) : V3 := ⟨F.mul a.x t, F.mul a.y t, F.mul a.z t⟩

def neg (a : V3) : V3 := ⟨F.neg a.x, F.neg a.y, F.neg a.z⟩

def cmin (a b : V3) : V3 := ⟨F.fmin a.x b.x, F.fmin a.y b.y, F.fmin a.z b.z⟩

def cmax (a b : V3) : V3 := ⟨F.fmax a.x b.x, F.fmax a.y b.y, F.fmax a.z b.z⟩

/-- `DVec3::max_element`: `self.x.max(self.y.max(self.z))`. -/
def max_element (a : V3) : F := F.fmax a.x (F.fmax a.y a.z)

/-- `DVec3::min_element`: `self.x.min(self.y.min(self.z))`. -/
def min_element (a : V3) : F := F.fmin a.x (F.fmin a.y a.z)

/-- `DVec3::dot`: sum of componentwise products, left associated. -/
def dot (a b : V3) : F :=
  F.add (F.add (F.mul a.x b.x) (F.mul a.y b.y)) (F.mul a.z b.z)

end V3

/-- The `Ray` struct (src/ray.rs lines 3-8). -/
structure RayF : Type where
  origin : V3
  direction : V3
  time : F
deriving DecidableEq

/-- `Ray::at` (src/ray.rs lines 11-13): `origin + direction * t`. -/
def RayF.at (r : RayF) (t : F) : V3 := r.origin.add (r.direction.smul t)

/-- The `Face` enum (src/hittable.rs lines 17-21). -/
inductive Face : Type
  | Front
  | Back
deriving DecidableEq

/-- `compute_face_normal` (src/hittable.rs lines 23-29). -/
def compute_face_normalF (ray : RayF) (outward_normal : V3) : V3 × Face :=
  if F.lt (ray.direction.dot outward_normal) (F.fin 0) then
    (outward_normal, Face.Front)
  else
    (outward_normal.neg, Face.Back)

/-- The `Aabb` struct (src/hittable.rs lines 31-35). -/
structure AabbF : Type where
  minimum : V3
  maximum : V3
deriving DecidableEq

/-- `Aabb::is_hit_by` (src/hittable.rs lines 38-44), the slab test. -/
def AabbF.is_hit_by (self : AabbF) (ray : RayF) (t_min t_max : F) : Bool :=
  let a := (self.minimum.sub ray.origin).cdiv ray.direction
  let b := (self.maximum.sub ray.origin).cdiv ray.direction
  let t0 := F.fmax (a.cmin b).max_element t_min
  let t1 := F.fmin (a.cmax b).min_element t_max
  F.lt t0 t1

/-- `Aabb::union` (src/hittable.rs lines 46-51). -/
def AabbF.union (self other : AabbF) : AabbF :=
  ⟨self.minimum.cmin other.minimum, self.maximum.cmax other.maximum⟩

/-- The `Plane` enum (src/hittable.rs lines 303-307). -/
inductive Plane : Type
  | XY
  | YZ
  | ZX
deriving DecidableEq

/-- The hit record (src/hittable.rs lines 7-15); the material reference
is omitted in the `F` model (the BVH / slice-aggregation claims do not
touch it). -/
structure HitF : Type where
  t : F
  point : V3
  normal : V3
  uv : V2
  face : Face
deriving DecidableEq

/-- The `Rect` struct (src/hittable.rs lines 309-315), material omitted. -/
structure RectF : Type where
  plane : Plane
  min : V2
  max : V2
  k : F
deriving DecidableEq

/-- `Rect::hit` (src/hittable.rs lines 318-351). -/
def RectF.hit (self : RectF) (ray : RayF) (t_min t_max : F) : Option HitF :=
  let t := match self.plane with
    | Plane.XY => F.div (F.sub self.k ray.origin.z) ray.direction.z
    | Plane.YZ => F.div (F.sub self.k ray.origin.x) ray.direction.x
    | Plane.ZX => F.div (F.sub self.k ray.origin.y) ray.direction.y
  if F.lt t t_min || F.lt t_max t then none else
  let point := ray.at t
  let xy : V2 := match self.plane with
    | Plane.XY => ⟨point.x, point.y⟩
    | Plane.YZ => ⟨point.y, point.z⟩
    | Plane.ZX => ⟨point.z, point.x⟩
  if (F.lt xy.x self.min.x || F.lt xy.y self.min.y) ||
     (F.lt self.max.x xy.x || F.lt self.max.y xy.y) then none else
  let uv : V2 := ⟨F.div (F.sub xy.x self.min.x) (F.sub self.max.x self.min.x),
                  F.div (F.sub xy.y self.min.y) (F.sub self.max.y self.min.y)⟩
  let outward_normal : V3 := match self.plane with
    | Plane.XY => ⟨F.fin 0, F.fin 0, F.fin 1⟩
    | Plane.YZ => ⟨F.fin 1, F.fin 0, F.fin 0⟩
    | Plane.ZX => ⟨F.fin 0, F.fin 1, F.fin 0⟩
  let nf := compute_face_normalF ray outward_normal
  some { t := t, point := point, normal := nf.1, uv := uv, face := nf.2 }

/-- `Rect::bounding_box` (src/hittable.rs lines 353-364): the box is
padded by `epsilon = 0.0001` along the constant axis, and the swizzles
are exactly the source's (`xyz`, `yzx`, `zxy`). -/
def RectF.bounding_box (self : RectF) : AabbF :=
  let epsilon : F := F.fin (1 / 10000)
  let lo : V3 := ⟨self.min.x, self.min.y, F.sub self.k epsilon⟩
  let hi : V3 := ⟨self.max.x, self.max.y, F.add self.k epsilon⟩
  match self.plane with
  | Plane.XY => ⟨lo, hi⟩
  | Plane.YZ => ⟨⟨lo.y, lo.z, lo.x⟩, ⟨hi.y, hi.z, hi.x⟩⟩
  | Plane.ZX => ⟨⟨lo.z, lo.x, lo.y⟩, ⟨hi.z, hi.x, hi.y⟩⟩

/-! ## The hittable tree over `F`

`rect` is the concrete primitive used by the counterexample, `prim`
stands for an opaque `Arc<dyn Hittable>` leaf (an arbitrary hit
function with a stored bounding box), and `node` is a `BvhNode`
(src/hittable.rs lines 245-249). -/

inductive HittableF : Type
  | rect (r : RectF)
  | prim (hitf : RayF → F → F → Option HitF) (box : AabbF)
  | node (left right : HittableF) (box : AabbF)

/-- `Hittable::bounding_box` for the tree (every variant here has a
box; `BvhNode::bounding_box` returns the stored box). -/
def HittableF.bb : HittableF → AabbF
  | .rect r => r.bounding_box
  | .prim _ box => box
  | .node _ _ box => box

/-- `Hittable::hit` for the tree; the `node` case is `BvhNode::hit`
(src/hittable.rs lines 282-296): reject via the slab test, query the
left child, tighten the upper bound to the left hit's `t` (`min t_max`),
query the right child on the tightened interval, and prefer the right
hit. -/
def HittableF.hit : HittableF → RayF → F → F → Option HitF
  | .rect r, ray, t_min, t_max => r.hit ray t_min t_max
  | .prim hitf _, ray, t_min, t_max => hitf ray t_min t_max
  | .node left right box, ray, t_min, t_max =>
    if !(box.is_hit_by ray t_min t_max) then none else
    let left_hit := left.hit ray t_min t_max
    let upper_bound := (left_hit.map (fun h => F.fmin h.t t_max)).getD t_max
    let right_hit := right.hit ray t_min upper_bound
    right_hit.or left_hit

/-- The `expect` on `partial_cmp` in the slice comparator
(src/hittable.rs lines 113-117): the panic is unreachable because the
comparator runs only on finite `t`s; modelled with an `Ordering.eq`
default. -/
def pcmpExpect (a b : F) : Ordering := (F.pcmp a b).getD Ordering.eq

/-- `Iterator::min_by`: fold keeping the earlier element on ties. -/
def minBy {α : Type} (cmp : α → α → Ordering) : List α → Option α
  | [] => none
  | x :: xs => some (xs.foldl (fun acc y => if cmp acc y = Ordering.gt then y else acc) x)

/-- `<[T] as Hittable>::hit` (src/hittable.rs lines 108-118): test all
members, keep only hits with finite `t`, and take the minimum by `t`.
`World::hit` (lines 146-149) delegates to this. -/
def sliceHitF (objs : List HittableF) (ray : RayF) (t_min t_max : F) : Option HitF :=
  minBy (fun h1 h2 => pcmpExpect h1.t h2.t)
    (((objs.filterMap (fun o => o.hit ray t_min t_max))).filter (fun h => h.t.isFinite))

/-- Stable comparator-based sort modelling `slice::sort_by` (a stable
merge sort in Rust; any stable sort by the same comparator produces the
same list). -/
def insertBy {α : Type} (cmp : α → α → Ordering) (x : α) : List α → List α
  | [] => [x]
  | y :: ys => if cmp x y = Ordering.gt then y :: insertBy cmp x ys else x :: y :: ys

def sortBy {α : Type} (cmp : α → α → Ordering) : List α → List α
  | [] => []
  | x :: xs => insertBy cmp x (sortBy cmp xs)

/-- The component of a `DVec3` selected by `minimum[axis]`. -/
def V3.nth (v : V3) : Fin 3 → F
  | 0 => v.x
  | 1 => v.y
  | 2 => v.z

theorem insertBy_length {α : Type} (cmp : α → α → Ordering) (x : α) (l : List α) :
    (insertBy cmp x l).length = l.length + 1 := by
  induction l with
  | nil => rfl
  | cons y ys ih =>
    unfold insertBy
    by_cases h : cmp x y = Ordering.gt <;> simp [h, ih]

theorem sortBy_length {α : Type} (cmp : α → α → Ordering) (l : List α) :
    (sortBy cmp l).length = l.length := by
  induction l with
  | nil => rfl
  | cons x xs ih => simp [sortBy, insertBy_length, ih]

/-- `BvhNode::new` (src/hittable.rs lines 252-278): pick an axis from
the random stream `axes` (advancing the counter `k`), sort the handles
by the box minimum on that axis with `total_cmp`, then split: one
object becomes both children, two objects become one child each,
otherwise recurse on the two halves of the midpoint split.  The source
diverges on an empty list (unreachable: scenes are non-empty); the model
returns an inert empty leaf there. -/
def bvhNew (list : List HittableF) (axes : ℕ → Fin 3) (k : ℕ) : HittableF × ℕ :=
  let axis := axes k
  let sorted := sortBy
    (fun oa ob => F.totalCmp (oa.bb.minimum.nth axis) (ob.bb.minimum.nth axis)) list
  match h : sorted with
  | [] => (.prim (fun _ _ _ => none) ⟨⟨F.fin 0, F.fin 0, F.fin 0⟩, ⟨F.fin 0, F.fin 0, F.fin 0⟩⟩,
      k + 1)
  | [a] => (.node a a (a.bb.union a.bb), k + 1)
  | [a, b] => (.node a b (a.bb.union b.bb), k + 1)
  | _ :: _ :: _ :: _ =>
    let half := sorted.length / 2
    let lres := bvhNew (sorted.take half) axes (k + 1)
    let rres := bvhNew (sorted.drop half) axes lres.2
    (.node lres.1 rres.1 (lres.1.bb.union rres.1.bb), rres.2)
termination_by list.length
decreasing_by
  · have hlen := (sortBy_length
      (fun oa ob => F.totalCmp (oa.bb.minimum.nth (axes k)) (ob.bb.minimum.nth (axes k)))
      list).symm.trans (congrArg List.length h)
    simp only [List.length_cons] at hlen
    rw [sortBy_length]
    have ht := List.length_take_le (list.length / 2)
      (sortBy (fun oa ob =>
        F.totalCmp (oa.bb.minimum.nth (axes k)) (ob.bb.minimum.nth (axes k))) list)
    omega
  · have hlen := (sortBy_length
      (fun oa ob => F.totalCmp (oa.bb.minimum.nth (axes k)) (ob.bb.minimum.nth (axes k)))
      list).symm.trans (congrArg List.length h)
    simp only [List.length_cons] at hlen
    simp only [List.length_drop, sortBy_length]
    omega

/-! ## C1 counterexample

A unit axis-aligned rectangle in the plane `z = 0` and a ray that
travels inside that plane: `Rect::hit` computes `t = 0.0/0.0 = NaN`,
none of the NaN comparisons reject it, so the rectangle reports a hit
with `t = NaN`.  The brute-force slice scan discards the non-finite hit
and reports no hit; the `BvhNode` built from the one-element list does
not filter and reports the NaN hit. -/

def rectCE : RectF :=
  { plane := Plane.XY, min := ⟨F.fin 0, F.fin 0⟩, max := ⟨F.fin 1, F.fin 1⟩, k := F.fin 0 }

def rayCE : RayF :=
  { origin := ⟨F.fin (1/2), F.fin (1/2), F.fin 0⟩
    direction := ⟨F.fin 1, F.fin 0, F.fin 0⟩
    time := F.fin 0 }

def recCE : HitF :=
  { t := F.nan, point := ⟨F.nan, F.nan, F.nan⟩
    normal := ⟨F.fin 0, F.fin 0, F.fin (-1)⟩
    uv := ⟨F.nan, F.nan⟩, face := Face.Back }

theorem rectCE_hit_eval :
    rectCE.hit rayCE (F.fin (1/1000)) F.inf = some recCE := by
  norm_num [RectF.hit, rectCE, rayCE, recCE, RayF.at, V3.add, V3.smul,
    compute_face_normalF, V3.dot, V3.neg, F.div, F.sub, F.add, F.neg, F.mul, F.lt]

theorem sliceHitF_CE_eval :
    sliceHitF [HittableF.rect rectCE] rayCE (F.fin (1/1000)) F.inf = none := by
  norm_num [sliceHitF, HittableF.hit, rectCE_hit_eval, recCE, F.isFinite, minBy,
    List.filterMap_cons, List.filterMap_nil, List.filter_cons, List.filter_nil]

theorem bvhCE_eval :
    (bvhNew [HittableF.rect rectCE] (fun _ => (0 : Fin 3)) 0).1 =
      HittableF.node (HittableF.rect rectCE) (HittableF.rect rectCE)
        (rectCE.bounding_box.union rectCE.bounding_box) := by
  rw [bvhNew.eq_def]
  dsimp only
  split
  · next h => simp [sortBy, insertBy] at h
  · next a h =>
    simp only [sortBy, insertBy, List.cons.injEq, and_true] at h
    subst h
    simp [HittableF.bb]
  · next a b h => simp [sortBy, insertBy] at h
  · next a b c tail h => simp [sortBy, insertBy] at h

theorem boxCE_eval :
    (rectCE.bounding_box.union rectCE.bounding_box).is_hit_by rayCE
      (F.fin (1/1000)) F.inf = true := by
  norm_num [AabbF.is_hit_by, AabbF.union, RectF.bounding_box, rectCE, rayCE,
    V3.sub, V3.cdiv, V3.cmin, V3.cmax, V3.max_element, V3.min_element,
    F.div, F.sub, F.add, F.neg, F.fmin, F.fmax, F.isNan, F.le, F.lt]

/-- C1 counterexample: for the one-rectangle scene and the in-plane ray
above, queried on `[0.001, ∞)`, the brute-force scan reports no hit but
the `BvhNode` built from the same list reports a (NaN-`t`) hit, so the
BVH query does not return the same result as the linear scan. -/
theorem bvh_scan_mismatch :
    (bvhNew [HittableF.rect rectCE] (fun _ => (0 : Fin 3)) 0).1.hit rayCE
        (F.fin (1/1000)) F.inf = some recCE ∧
      sliceHitF [HittableF.rect rectCE] rayCE (F.fin (1/1000)) F.inf = none ∧
      recCE.t.isFinite = false := by
  refine ⟨?_, sliceHitF_CE_eval, rfl⟩
  rw [bvhCE_eval]
  show (if _ then _ else _) = _
  rw [boxCE_eval]
  norm_num [HittableF.hit, rectCE_hit_eval, recCE, F.fmin, F.isNan]

/-! ## Nearest-candidate semantics

`minInRange c a b` is the least candidate parameter in `c` lying in the
query interval `[a, b]` (with the IEEE `≤` of the model). A hittable
whose hit parameter is the least in-range member of a fixed finite
candidate set — which is how `Sphere::hit` and `Rect::hit` behave when
no NaN arithmetic occurs — satisfies `PrimSpec`. -/

def inRangeF (a b : F) (q : ℚ) : Bool := F.le a (F.fin q) && F.le (F.fin q) b

def listMinQ : List ℚ → Option ℚ
  | [] => none
  | q :: qs => some (qs.foldl min q)

def minInRange (c : List ℚ) (a b : F) : Option ℚ := listMinQ (c.filter (inRangeF a b))

theorem foldl_min_le_init (l : List ℚ) : ∀ q : ℚ, l.foldl min q ≤ q := by
  induction l with
  | nil => intro q; exact le_refl q
  | cons x xs ih =>
    intro q
    simpa using le_trans (ih (min q x)) (min_le_left q x)

theorem foldl_min_le_mem (l : List ℚ) : ∀ (q : ℚ) (x : ℚ), x ∈ l → l.foldl min q ≤ x := by
  induction l with
  | nil => intro q x hx; simp at hx
  | cons y ys ih =>
    intro q x hx
    rcases List.mem_cons.mp hx with h | h
    · subst h
      exact le_trans (foldl_min_le_init ys (min q x)) (min_le_right q x)
    · exact ih (min q y) x h

theorem foldl_min_mem (l : List ℚ) : ∀ q : ℚ, l.foldl min q = q ∨ l.foldl min q ∈ l := by
  induction l with
  | nil => intro q; exact Or.inl rfl
  | cons x xs ih =>
    intro q
    rcases ih (min q x) with h | h
    · rcases min_cases q x with ⟨hm, _⟩ | ⟨hm, _⟩
      · exact Or.inl (by rw [List.foldl_cons, h, hm])
      · exact Or.inr (by rw [List.foldl_cons, h, hm]; exact List.mem_cons_self x xs)
    · exact Or.inr (List.mem_cons_of_mem x h)

theorem listMinQ_eq_none_iff (l : List ℚ) : listMinQ l = none ↔ l = [] := by
  cases l <;> simp [listMinQ]

theorem listMinQ_spec {l : List ℚ} {m : ℚ} (h : listMinQ l = some m) :
    m ∈ l ∧ ∀ x ∈ l, m ≤ x := by
  cases l with
  | nil => simp [listMinQ] at h
  | cons q qs =>
    simp only [listMinQ, Option.some.injEq] at h
    subst h
    constructor
    · rcases foldl_min_mem qs q with h | h
      · rw [h]; exact List.mem_cons_self q qs
      · exact List.mem_cons_of_mem q h
    · intro x hx
      rcases List.mem_cons.mp hx with h | h
      · subst h; exact foldl_min_le_init qs x
      · exact foldl_min_le_mem qs q x h

theorem listMinQ_eq_some {l : List ℚ} {m : ℚ} (hm : m ∈ l) (hle : ∀ x ∈ l, m ≤ x) :
    listMinQ l = some m := by
  cases hl : listMinQ l with
  | none => rw [listMinQ_eq_none_iff] at hl; subst hl; simp at hm
  | some m' =>
    obtain ⟨hmem', hle'⟩ := listMinQ_spec hl
    exact congrArg some (le_antisymm (hle' m hm) (hle m' hmem'))

theorem minInRange_eq_none_iff (c : List ℚ) (a b : F) :
    minInRange c a b = none ↔ ∀ q ∈ c, inRangeF a b q = false := by
  rw [minInRange, listMinQ_eq_none_iff, List.filter_eq_nil_iff]
  constructor
  · intro h q hq
    exact Bool.not_eq_true _ ▸ (by simpa using h q hq)
  · intro h q hq
    simp [h q hq]

theorem minInRange_spec {c : List ℚ} {a b : F} {m : ℚ} (h : minInRange c a b = some m) :
    m ∈ c ∧ inRangeF a b m = true ∧ ∀ q ∈ c, inRangeF a b q = true → m ≤ q := by
  obtain ⟨hmem, hle⟩ := listMinQ_spec h
  rw [List.mem_filter] at hmem
  exact ⟨hmem.1, hmem.2, fun q hq hr => hle q (List.mem_filter.mpr ⟨hq, hr⟩)⟩

theorem minInRange_eq_some {c : List ℚ} {a b : F} {m : ℚ} (hm : m ∈ c)
    (hr : inRangeF a b m = true) (hle : ∀ q ∈ c, inRangeF a b q = true → m ≤ q) :
    minInRange c a b = some m :=
  listMinQ_eq_some (List.mem_filter.mpr ⟨hm, hr⟩)
    (fun x hx => by
      rw [List.mem_filter] at hx
      exact hle x hx.1 hx.2)

/-! Order helpers for the IEEE `≤` of the model on finite values. -/

theorem F.le_fin_fin {x y : ℚ} : F.le (F.fin x) (F.fin y) = true ↔ x ≤ y := by
  simp [F.le]

theorem F.le_fin_mono {x y : ℚ} {b : F} (hxy : x ≤ y) (h : F.le (F.fin y) b = true) :
    F.le (F.fin x) b = true := by
  cases b with
  | fin q => rw [F.le_fin_fin] at h ⊢; exact le_trans hxy h
  | inf => simp [F.le]
  | neginf => simp [F.le] at h
  | nan => simp [F.le] at h

theorem F.le_fin_anti {x y : ℚ} {a : F} (hxy : x ≤ y) (h : F.le a (F.fin x) = true) :
    F.le a (F.fin y) = true := by
  cases a with
  | fin q => rw [F.le_fin_fin] at h ⊢; exact le_trans h hxy
  | inf => simp [F.le] at h
  | neginf => simp [F.le]
  | nan => simp [F.le] at h

theorem F.fmin_fin_of_le {t : ℚ} {b : F} (h : F.le (F.fin t) b = true) :
    F.fmin (F.fin t) b = F.fin t := by
  simp [F.fmin, F.isNan, h]

theorem inRangeF_of_le {a b : F} {q t0 : ℚ} (h : inRangeF a (F.fin t0) q = true)
    (hb : F.le (F.fin t0) b = true) : inRangeF a b q = true := by
  rw [inRangeF, Bool.and_eq_true] at h ⊢
  exact ⟨h.1, F.le_fin_mono (F.le_fin_fin.mp h.2) hb⟩

theorem inRangeF_shrink {a b : F} {q t0 : ℚ} (h : inRangeF a b q = true)
    (hq : q ≤ t0) : inRangeF a (F.fin t0) q = true := by
  rw [inRangeF, Bool.and_eq_true] at h ⊢
  exact ⟨h.1, F.le_fin_fin.mpr hq⟩

/-- Nearest-candidate semantics for a hittable `o` on a fixed ray: on
every non-NaN query interval, the reported hit parameter is exactly the
least in-range member of the candidate list `c` (and there is no hit
exactly when no candidate is in range). -/
def PrimSpec (ray : RayF) (o : HittableF) (c : List ℚ) : Prop :=
  ∀ a b : F, a.isNan = false → b.isNan = false →
    (o.hit ray a b).map HitF.t = (minInRange c a b).map F.fin

theorem node_spec {ray : RayF} {l r : HittableF} {box : AabbF} {cl cr : List ℚ}
    (hl : PrimSpec ray l cl) (hr : PrimSpec ray r cr)
    (hbox : ∀ a b : F, a.isNan = false → b.isNan = false →
      box.is_hit_by ray a b = false → minInRange (cl ++ cr) a b = none) :
    PrimSpec ray (HittableF.node l r box) (cl ++ cr) := by
  intro a b ha hb
  cases hbt : box.is_hit_by ray a b with
  | false =>
    simp only [HittableF.hit, hbt, Bool.not_false, if_true]
    rw [hbox a b ha hb hbt]
    rfl
  | true =>
    simp only [HittableF.hit, hbt, Bool.not_true, Bool.false_eq_true, if_false]
    have hl' := hl a b ha hb
    cases hcl : minInRange cl a b with
    | none =>
      rw [hcl] at hl'
      have hlhit : l.hit ray a b = none := Option.map_eq_none'.mp (hl'.trans rfl)
      have hclf : cl.filter (inRangeF a b) = [] := by
        rw [minInRange, listMinQ_eq_none_iff] at hcl
        exact hcl
      rw [hlhit]
      simp only [Option.map_none', Option.getD_none, Option.or_none]
      rw [hr a b ha hb]
      unfold minInRange
      rw [List.filter_append, hclf, List.nil_append]
    | some t0 =>
      rw [hcl] at hl'
      obtain ⟨rec0, hrec0, hrec0t⟩ := Option.map_eq_some'.mp (hl'.trans rfl)
      obtain ⟨ht0mem, ht0range, ht0min⟩ := minInRange_spec hcl
      have ht0r := ht0range
      rw [inRangeF, Bool.and_eq_true] at ht0r
      obtain ⟨hA, hB⟩ := ht0r
      rw [hrec0]
      simp only [Option.map_some', Option.getD_some, hrec0t]
      rw [F.fmin_fin_of_le hB]
      have hr' := hr a (F.fin t0) ha rfl
      cases hcr : minInRange cr a (F.fin t0) with
      | some t1 =>
        rw [hcr] at hr'
        obtain ⟨rec1, hrec1, hrec1t⟩ := Option.map_eq_some'.mp (hr'.trans rfl)
        obtain ⟨ht1mem, ht1range, ht1min⟩ := minInRange_spec hcr
        rw [inRangeF, Bool.and_eq_true] at ht1range
        obtain ⟨hA1, hB1⟩ := ht1range
        have hle10 : t1 ≤ t0 := F.le_fin_fin.mp hB1
        rw [hrec1]
        simp only [Option.or, Option.map_some', hrec1t]
        have : minInRange (cl ++ cr) a b = some t1 := by
          apply minInRange_eq_some (List.mem_append.mpr (Or.inr ht1mem))
          · rw [inRangeF, Bool.and_eq_true]
            exact ⟨hA1, F.le_fin_mono hle10 hB⟩
          · intro q hq hqr
            rcases List.mem_append.mp hq with hq | hq
            · exact le_trans hle10 (ht0min q hq hqr)
            · rcases le_or_lt q t0 with h | h
              · exact ht1min q hq (inRangeF_shrink hqr h)
              · exact le_trans hle10 (le_of_lt h)
        rw [this, Option.map_some']
      | none =>
        rw [hcr] at hr'
        have hrhit : r.hit ray a (F.fin t0) = none := Option.map_eq_none'.mp (hr'.trans rfl)
        rw [hrhit]
        simp only [Option.or, Option.map_some', hrec0t]
        have : minInRange (cl ++ cr) a b = some t0 := by
          apply minInRange_eq_some (List.mem_append.mpr (Or.inl ht0mem)) ht0range
          intro q hq hqr
          rcases List.mem_append.mp hq with hq | hq
          · exact ht0min q hq hqr
          · rcases le_or_lt t0 q with h | h
            · exact h
            · exfalso
              have := (minInRange_eq_none_iff cr a (F.fin t0)).mp hcr q hq
              rw [inRangeF_shrink hqr (le_of_lt h)] at this
              exact Bool.true_eq_false.mp this
        rw [this, Option.map_some']

theorem F.isFinite_iff {x : F} : x.isFinite = true ↔ ∃ q, x = F.fin q := by
  cases x <;> simp [F.isFinite]

theorem pcmpExpect_fin_gt {x y : ℚ} :
    pcmpExpect (F.fin x) (F.fin y) = Ordering.gt ↔ y < x := by
  simp only [pcmpExpect, F.pcmp, Option.getD_some]
  exact compare_gt_iff_gt

theorem foldl_step_mem (xs : List HitF) (x : HitF) :
    xs.foldl (fun acc y => if pcmpExpect acc.t y.t = Ordering.gt then y else acc) x
      ∈ x :: xs := by
  induction xs generalizing x with
  | nil => simp
  | cons y ys ih =>
    rw [List.foldl_cons]
    rcases List.mem_cons.mp (ih (if pcmpExpect x.t y.t = Ordering.gt then y else x)) with h | h
    · rw [h]
      by_cases hc : pcmpExpect x.t y.t = Ordering.gt <;> simp [hc]
    · exact List.mem_cons_of_mem _ (List.mem_cons_of_mem _ h)

theorem foldl_step_min (xs : List HitF) :
    ∀ (x : HitF) (q0 : ℚ), x.t = F.fin q0 → (∀ y ∈ xs, y.t.isFinite = true) →
    ∃ qm, (xs.foldl (fun acc y => if pcmpExpect acc.t y.t = Ordering.gt then y else acc) x).t
        = F.fin qm ∧ qm ≤ q0 ∧ ∀ y ∈ xs, ∀ qy, y.t = F.fin qy → qm ≤ qy := by
  induction xs with
  | nil =>
    intro x q0 hx _
    exact ⟨q0, hx, le_refl q0, by simp⟩
  | cons y ys ih =>
    intro x q0 hx hfin
    obtain ⟨qy, hqy⟩ := F.isFinite_iff.mp (hfin y (List.mem_cons_self y ys))
    have hfin' : ∀ z ∈ ys, z.t.isFinite = true :=
      fun z hz => hfin z (List.mem_cons_of_mem y hz)
    rw [List.foldl_cons]
    by_cases hc : pcmpExpect x.t y.t = Ordering.gt
    · rw [hx, hqy, pcmpExpect_fin_gt] at hc
      rw [if_pos (by rw [hx, hqy, pcmpExpect_fin_gt]; exact hc)]
      obtain ⟨qm, hqm, hqm0, hqmys⟩ := ih y qy hqy hfin'
      refine ⟨qm, hqm, le_trans hqm0 (le_of_lt hc), ?_⟩
      intro z hz qz hqz
      rcases List.mem_cons.mp hz with h | h
      · subst h; rw [hqy] at hqz; exact (F.fin.injEq _ _ ▸ hqz :) ▸ hqm0
      · exact hqmys z h qz hqz
    · rw [hx, hqy, pcmpExpect_fin_gt] at hc
      push_neg at hc
      rw [if_neg (by rw [hx, hqy, pcmpExpect_fin_gt]; exact not_lt.mpr hc)]
      obtain ⟨qm, hqm, hqm0, hqmys⟩ := ih x q0 hx hfin'
      refine ⟨qm, hqm, hqm0, ?_⟩
      intro z hz qz hqz
      rcases List.mem_cons.mp hz with h | h
      · subst h
        rw [hqy] at hqz
        have : qy = qz := by injection hqz
        exact this ▸ le_trans hqm0 hc
      · exact hqmys z h qz hqz

/-- A hittable with `PrimSpec` candidates `c` reports, on interval
`[a,b]`, either no hit (iff no candidate is in range) or a hit whose `t`
is the finite least in-range candidate. -/
theorem primSpec_hit_cases {ray : RayF} {o : HittableF} {c : List ℚ}
    (hs : PrimSpec ray o c) {a b : F} (ha : a.isNan = false) (hb : b.isNan = false) :
    (o.hit ray a b = none ∧ minInRange c a b = none) ∨
    (∃ rec t0, o.hit ray a b = some rec ∧ rec.t = F.fin t0 ∧ minInRange c a b = some t0) := by
  have h := hs a b ha hb
  cases hhit : o.hit ray a b with
  | none =>
    rw [hhit, Option.map_none'] at h
    cases hmin : minInRange c a b with
    | none => exact Or.inl ⟨rfl, rfl⟩
    | some t0 => rw [hmin, Option.map_some'] at h; exact absurd h (by simp)
  | some rec =>
    rw [hhit, Option.map_some'] at h
    cases hmin : minInRange c a b with
    | none => rw [hmin, Option.map_none'] at h; exact absurd h (by simp)
    | some t0 =>
      rw [hmin, Option.map_some'] at h
      exact Or.inr ⟨rec, t0, rfl, by injection h, rfl⟩

theorem scan_spec (ray : RayF) (pairs : List (HittableF × List ℚ))
    (hspec : ∀ p ∈ pairs, PrimSpec ray p.1 p.2) (a b : F)
    (ha : a.isNan = false) (hb : b.isNan = false) :
    (sliceHitF (pairs.map Prod.fst) ray a b).map HitF.t
      = (minInRange (pairs.flatMap Prod.snd) a b).map F.fin := by
  classical
  set hits := (pairs.map Prod.fst).filterMap (fun o => o.hit ray a b) with hhits
  set frecs := hits.filter (fun h => h.t.isFinite) with hfrecs
  have hmemsrc : ∀ rec ∈ hits, ∃ p ∈ pairs, p.1.hit ray a b = some rec := by
    intro rec hrec
    rw [hhits] at hrec
    obtain ⟨o, ho, hhit⟩ := List.mem_filterMap.mp hrec
    obtain ⟨p, hp, hpo⟩ := List.mem_map.mp ho
    exact ⟨p, hp, hpo ▸ hhit⟩
  have hproduce : ∀ p ∈ pairs, ∀ q ∈ p.2, inRangeF a b q = true →
      ∃ rec t0, rec ∈ frecs ∧ p.1.hit ray a b = some rec ∧ rec.t = F.fin t0 ∧ t0 ≤ q := by
    intro p hp q hq hqr
    rcases primSpec_hit_cases (hspec p hp) ha hb with ⟨_, hnone⟩ | ⟨rec, t0, hhit, hrt, hmin⟩
    · exact absurd ((minInRange_eq_none_iff _ a b).mp hnone q hq)
        (by rw [hqr]; exact Bool.true_eq_false.mp ∘ id)
    · refine ⟨rec, t0, ?_, hhit, hrt, (minInRange_spec hmin).2.2 q hq hqr⟩
      rw [hfrecs]
      refine List.mem_filter.mpr ⟨?_, by rw [hrt]; rfl⟩
      rw [hhits]
      exact List.mem_filterMap.mpr ⟨p.1, List.mem_map.mpr ⟨p, hp, rfl⟩, hhit⟩
  have hslice : sliceHitF (pairs.map Prod.fst) ray a b
      = minBy (fun h1 h2 => pcmpExpect h1.t h2.t) frecs := rfl
  rw [hslice]
  cases hfe : frecs with
  | nil =>
    have hflat : minInRange (pairs.flatMap Prod.snd) a b = none := by
      rw [minInRange_eq_none_iff]
      intro q hq
      by_contra hqr
      rw [Bool.not_eq_false] at hqr
      obtain ⟨p, hp, hqp⟩ := List.mem_flatMap.mp hq
      obtain ⟨rec, t0, hrecmem, _, _, _⟩ := hproduce p hp q hqp hqr
      rw [hfe] at hrecmem
      simp at hrecmem
    rw [hflat]
    rfl
  | cons x xs =>
    have hallfin : ∀ y ∈ frecs, y.t.isFinite = true := by
      intro y hy
      rw [hfrecs] at hy
      exact (List.mem_filter.mp hy).2
    obtain ⟨qx, hqx⟩ := F.isFinite_iff.mp (hallfin x (hfe ▸ List.mem_cons_self x xs))
    obtain ⟨qm, hqm, hqm0, hqmxs⟩ := foldl_step_min xs x qx hqx
      (fun y hy => hallfin y (hfe ▸ List.mem_cons_of_mem x hy))
    have hresmem : xs.foldl
        (fun acc y => if pcmpExpect acc.t y.t = Ordering.gt then y else acc) x ∈ frecs :=
      hfe ▸ foldl_step_mem xs x
    set res := xs.foldl
        (fun acc y => if pcmpExpect acc.t y.t = Ordering.gt then y else acc) x with hres
    obtain ⟨p, hp, hphit⟩ := hmemsrc res
      (by rw [hfrecs] at hresmem; exact (List.mem_filter.mp hresmem).1)
    rcases primSpec_hit_cases (hspec p hp) ha hb with ⟨hnone, _⟩ | ⟨rec, t0, hhit, hrt, hmin⟩
    · rw [hphit] at hnone; exact absurd hnone (by simp)
    · have hrec : rec = res := by rw [hphit] at hhit; injection hhit.symm
      subst hrec
      have hqmt0 : qm = t0 := by
        rw [hqm] at hrt; injection hrt
      obtain ⟨ht0mem, ht0range, _⟩ := minInRange_spec hmin
      have hflat : minInRange (pairs.flatMap Prod.snd) a b = some qm := by
        apply minInRange_eq_some
        · exact List.mem_flatMap.mpr ⟨p, hp, hqmt0 ▸ ht0mem⟩
        · exact hqmt0 ▸ ht0range
        · intro q hq hqr
          obtain ⟨p', hp', hqp'⟩ := List.mem_flatMap.mp hq
          obtain ⟨rec', t0', hrecmem', _, hrt', ht0q'⟩ := hproduce p' hp' q hqp' hqr
          have hrecbound : qm ≤ t0' := by
            rcases List.mem_cons.mp (hfe ▸ hrecmem' : rec' ∈ x :: xs) with h | h
            · subst h
              rw [hqx] at hrt'
              have : qx = t0' := by injection hrt'
              exact this ▸ hqm0
            · exact hqmxs rec' h t0' hrt'
          exact le_trans hrecbound ht0q'
      rw [hflat]
      show some _ = _
      rw [Option.map_some', hqm]

/-- C1 (amended): for a `BvhNode` whose two children have
nearest-finite-candidate hit semantics (`PrimSpec`, true of the
primitives when no NaN/∞ arithmetic occurs) and whose bounding-box slab
test never rejects an interval containing an in-range candidate, the
node's hit query returns a hit with exactly the same `t` as the
brute-force linear scan of the two-child list — including when the
children's boxes overlap, thanks to the tightened upper bound.  (The
unamended claim is refuted by `bvh_scan_mismatch`: without the NaN- and
box-soundness conditions the BVH can report a NaN hit the scan
discards.) -/
theorem bvh_node_matches_scan (ray : RayF) (l r : HittableF) (box : AabbF)
    (cl cr : List ℚ) (hl : PrimSpec ray l cl) (hr : PrimSpec ray r cr)
    (hbox : ∀ a b : F, a.isNan = false → b.isNan = false →
      box.is_hit_by ray a b = false → minInRange (cl ++ cr) a b = none)
    (a b : F) (ha : a.isNan = false) (hb : b.isNan = false) :
    ((HittableF.node l r box).hit ray a b).map HitF.t
      = (sliceHitF [l, r] ray a b).map HitF.t := by
  have h1 := node_spec hl hr hbox a b ha hb
  have h2 := scan_spec ray [(l, cl), (r, cr)]
    (by
      intro p hp
      rcases List.mem_cons.mp hp with h | h
      · subst h; exact hl
      · rw [List.mem_singleton] at h; subst h; exact hr)
    a b ha hb
  rw [show ([(l, cl), (r, cr)].map Prod.fst) = [l, r] from rfl] at h2
  rw [h1, h2]
  congr 2
  simp

def boxW : AabbF := ⟨⟨F.fin 0, F.fin 0, F.fin 0⟩, ⟨F.fin 0, F.fin 0, F.fin 0⟩⟩

def primW : HittableF := HittableF.prim (fun _ _ _ => none) boxW

/-- Witness for `bvh_node_matches_scan`: the inert opaque leaf with an
empty candidate list satisfies every hypothesis definitionally. -/
theorem bvh_node_matches_scan_witness :
    ((HittableF.node primW primW boxW).hit rayCE (F.fin 0) F.inf).map HitF.t
      = (sliceHitF [primW, primW] rayCE (F.fin 0) F.inf).map HitF.t :=
  bvh_node_matches_scan rayCE primW primW boxW [] []
    (fun _ _ _ _ => rfl) (fun _ _ _ _ => rfl) (fun _ _ _ _ _ => rfl)
    (F.fin 0) F.inf rfl rfl

/-- C3: the slice aggregate (`<[T] as Hittable>::hit`, to which
`World::hit` delegates) returns the member hit with the least finite
`t`: any returned record has finite `t`, is one of the member hits, and
its `t` is `≤` (IEEE `≤`) that of every finite-`t` member hit; and a hit
is returned whenever some member reports a finite-`t` hit.  Non-finite
(NaN/∞) member hits are removed by the `is_finite` filter before the
`min_by` comparator runs, so no NaN ever reaches an ordering comparison
and is never returned. -/
theorem slice_hit_min_finite (objs : List HittableF) (ray : RayF) (a b : F) :
    (∀ rec, sliceHitF objs ray a b = some rec →
        rec.t.isFinite = true ∧
        rec ∈ objs.filterMap (fun o => o.hit ray a b) ∧
        ∀ rec' ∈ objs.filterMap (fun o => o.hit ray a b),
          rec'.t.isFinite = true → F.le rec.t rec'.t) ∧
    ((∃ rec' ∈ objs.filterMap (fun o => o.hit ray a b), rec'.t.isFinite = true) →
      (sliceHitF objs ray a b).isSome = true) := by
  set hits := objs.filterMap (fun o => o.hit ray a b) with hhits
  set frecs := hits.filter (fun h => h.t.isFinite) with hfrecs
  have hslice : sliceHitF objs ray a b
      = minBy (fun h1 h2 => pcmpExpect h1.t h2.t) frecs := rfl
  cases hfe : frecs with
  | nil =>
    constructor
    · intro rec hrec
      rw [hslice, hfe] at hrec
      exact absurd hrec (by simp [minBy])
    · rintro ⟨rec', hrec', hfin'⟩
      have : rec' ∈ frecs := List.mem_filter.mpr ⟨hrec', hfin'⟩
      rw [hfe] at this
      simp at this
  | cons x xs =>
    have hallfin : ∀ y ∈ frecs, y.t.isFinite = true := by
      intro y hy
      rw [hfrecs] at hy
      exact (List.mem_filter.mp hy).2
    obtain ⟨qx, hqx⟩ := F.isFinite_iff.mp (hallfin x (hfe ▸ List.mem_cons_self x xs))
    obtain ⟨qm, hqm, hqm0, hqmxs⟩ := foldl_step_min xs x qx hqx
      (fun y hy => hallfin y (hfe ▸ List.mem_cons_of_mem x hy))
    have hres : sliceHitF objs ray a b
        = some (xs.foldl
            (fun acc y => if pcmpExpect acc.t y.t = Ordering.gt then y else acc) x) := by
      rw [hslice, hfe]; rfl
    constructor
    · intro rec hrec
      rw [hres] at hrec
      have hreceq : rec = xs.foldl
          (fun acc y => if pcmpExpect acc.t y.t = Ordering.gt then y else acc) x := by
        injection hrec.symm
      have hrecfrecs : rec ∈ frecs := hreceq ▸ hfe ▸ foldl_step_mem xs x
      have hrecfrecs' := hrecfrecs
      rw [hfrecs] at hrecfrecs'
      refine ⟨hallfin rec hrecfrecs, (List.mem_filter.mp hrecfrecs').1, ?_⟩
      intro rec' hrec' hfin'
      have hrec'frecs : rec' ∈ frecs := List.mem_filter.mpr ⟨hrec', hfin'⟩
      obtain ⟨q', hq'⟩ := F.isFinite_iff.mp hfin'
      have hqmq' : qm ≤ q' := by
        rcases List.mem_cons.mp (hfe ▸ hrec'frecs : rec' ∈ x :: xs) with h | h
        · subst h
          rw [hqx] at hq'
          have : qx = q' := by injection hq'
          exact this ▸ hqm0
        · exact hqmxs rec' h q' hq'
      rw [hreceq, hqm, hq', F.le_fin_fin]
      exact hqmq'
    · intro _
      rw [hres]
      rfl

/-- Witness for `slice_hit_min_finite` at a concrete empty scene. -/
theorem slice_hit_min_finite_witness :
    (∀ rec, sliceHitF ([] : List Grayt.HittableF) rayCE (F.fin 0) F.inf = some rec →
        rec.t.isFinite = true ∧
        rec ∈ List.filterMap (fun o => o.hit rayCE (F.fin 0) F.inf) ([] : List Grayt.HittableF) ∧
        ∀ rec' ∈ List.filterMap (fun o => o.hit rayCE (F.fin 0) F.inf) ([] : List Grayt.HittableF),
          rec'.t.isFinite = true → F.le rec.t rec'.t) ∧
    ((∃ rec' ∈ List.filterMap (fun o => o.hit rayCE (F.fin 0) F.inf) ([] : List Grayt.HittableF),
        rec'.t.isFinite = true) →
      (sliceHitF ([] : List Grayt.HittableF) rayCE (F.fin 0) F.inf).isSome = true) :=
  slice_hit_min_finite ([] : List Grayt.HittableF) rayCE (F.fin 0) F.inf

/-! ## Ideal-arithmetic model

For the claims that are about exact geometry and control flow rather
than IEEE special values, `f64` is idealized as `ℚ` and the
transcendental `f64` functions (`sqrt`, `tan`, `acos`, `atan2`, the
constant `π`) are an oracle bundle `Ops` — every theorem below holds
for an arbitrary oracle, and counterexamples instantiate it with a
function that agrees with the real function at each point evaluated.
Division by zero is the Lean convention `x / 0 = 0` (the NaN-sensitive
claims are handled by the `F` model above).  The upper interval bound is
`WithTop ℚ` so that the integrator's `f64::INFINITY` is `⊤`. -/

namespace Ideal

structure Vec3 : Type where
  x : ℚ
  y : ℚ
  z : ℚ
deriving DecidableEq

structure Vec2 : Type where
  x : ℚ
  y : ℚ
deriving DecidableEq

instance : Add Vec3 := ⟨fun a b => ⟨a.x + b.x, a.y + b.y, a.z + b.z⟩⟩
instance : Sub Vec3 := ⟨fun a b => ⟨a.x - b.x, a.y - b.y, a.z - b.z⟩⟩
instance : Neg Vec3 := ⟨fun a => ⟨-a.x, -a.y, -a.z⟩⟩
instance : Mul Vec3 := ⟨fun a b => ⟨a.x * b.x, a.y * b.y, a.z * b.z⟩⟩
instance : SMul ℚ Vec3 := ⟨fun t a => ⟨t * a.x, t * a.y, t * a.z⟩⟩
instance : One Vec3 := ⟨⟨1, 1, 1⟩⟩
instance : Zero Vec3 := ⟨⟨0, 0, 0⟩⟩

namespace Vec3

theorem add_def (a b : Vec3) : a + b = ⟨a.x + b.x, a.y + b.y, a.z + b.z⟩ := rfl
theorem sub_def (a b : Vec3) : a - b = ⟨a.x - b.x, a.y - b.y, a.z - b.z⟩ := rfl
theorem neg_def (a : Vec3) : -a = ⟨-a.x, -a.y, -a.z⟩ := rfl
theorem mul_def (a b : Vec3) : a * b = ⟨a.x * b.x, a.y * b.y, a.z * b.z⟩ := rfl
theorem smul_def (t : ℚ) (a : Vec3) : t • a = ⟨t * a.x, t * a.y, t * a.z⟩ := rfl
theorem one_def : (1 : Vec3) = ⟨1, 1, 1⟩ := rfl
theorem zero_def : (0 : Vec3) = ⟨0, 0, 0⟩ := rfl

/-- Componentwise division by a scalar (`v / r` in glam). -/
def sdiv (a : Vec3) (r : ℚ) : Vec3 := ⟨a.x / r, a.y / r, a.z / r⟩

def dot (a b : Vec3) : ℚ := a.x * b.x + a.y * b.y + a.z * b.z

def length_squared (a : Vec3) : ℚ := a.dot a

def cross (a b : Vec3) : Vec3 :=
  ⟨a.y * b.z - a.z * b.y, a.z * b.x - a.x * b.z, a.x * b.y - a.y * b.x⟩

theorem mul_comm_v (a b : Vec3) : a * b = b * a := by
  simp only [mul_def]
  rw [mul_comm a.x, mul_comm a.y, mul_comm a.z]

theorem mul_assoc_v (a b c : Vec3) : a * b * c = a * (b * c) := by
  simp only [mul_def]
  rw [mul_assoc a.x, mul_assoc a.y, mul_assoc a.z]

theorem one_mul_v (a : Vec3) : 1 * a = a := by
  simp only [one_def, mul_def, one_mul]

theorem mul_one_v (a : Vec3) : a * 1 = a := by
  simp only [one_def, mul_def, mul_one]

end Vec3

/-- The transcendental `f64` operations as an oracle: any function of
the right type; theorems hold for all oracles, and concrete runs
instantiate them with functions agreeing with the IEEE ones at the
points actually evaluated. -/
structure Ops : Type where
  sqrt : ℚ → ℚ
  tan : ℚ → ℚ
  acos : ℚ → ℚ
  atan2 : ℚ → ℚ → ℚ
  pi : ℚ

def Vec3.length (ops : Ops) (a : Vec3) : ℚ := ops.sqrt a.length_squared

/-- `DVec3::normalize`: the vector divided by its length (`/ 0 = 0` for
the degenerate zero vector, which the source never normalizes). -/
def Vec3.normalize (ops : Ops) (a : Vec3) : Vec3 := a.sdiv (a.length ops)

def Vec3.distance (ops : Ops) (a b : Vec3) : ℚ := (a - b).length ops

/-- The `Ray` struct (src/ray.rs lines 3-8). -/
structure Ray : Type where
  origin : Vec3
  direction : Vec3
  time : ℚ
deriving DecidableEq

/-- `Ray::at` (src/ray.rs lines 11-13). -/
def Ray.at (r : Ray) (t : ℚ) : Vec3 := r.origin + t • r.direction

/-- `compute_face_normal` (src/hittable.rs lines 23-29). -/
def compute_face_normal (ray : Ray) (outward_normal : Vec3) : Vec3 × Face :=
  if ray.direction.dot outward_normal < 0 then
    (outward_normal, Face.Front)
  else
    (-outward_normal, Face.Back)

/-- The `Aabb` struct and its slab test over ideal arithmetic
(src/hittable.rs lines 31-44); the upper query bound is `WithTop ℚ`. -/
structure Aabb : Type where
  minimum : Vec3
  maximum : Vec3
deriving DecidableEq

def slabs (self : Aabb) (ray : Ray) : Vec3 × Vec3 :=
  (⟨(self.minimum.x - ray.origin.x) / ray.direction.x,
    (self.minimum.y - ray.origin.y) / ray.direction.y,
    (self.minimum.z - ray.origin.z) / ray.direction.z⟩,
   ⟨(self.maximum.x - ray.origin.x) / ray.direction.x,
    (self.maximum.y - ray.origin.y) / ray.direction.y,
    (self.maximum.z - ray.origin.z) / ray.direction.z⟩)

def Aabb.is_hit_by (self : Aabb) (ray : Ray) (t_min : ℚ) (t_max : WithTop ℚ) : Bool :=
  let ab := slabs self ray
  let lo := max (max (min ab.1.x ab.2.x) (max (min ab.1.y ab.2.y) (min ab.1.z ab.2.z))) t_min
  let hi := min ((min (max ab.1.x ab.2.x) (min (max ab.1.y ab.2.y) (max ab.1.z ab.2.z)) : ℚ) : WithTop ℚ) t_max
  (lo : WithTop ℚ) < hi

/-- The texture model (src/texture.rs): the claims only exercise the
`Solid` constant-color variant (the scenes in src/main.rs use plain
albedo colors). -/
inductive Texture : Type
  | solid (color : Vec3)
deriving DecidableEq

def Texture.value : Texture → Vec2 → Vec3 → Vec3
  | .solid c, _, _ => c

/-- The material variants (src/material.rs). -/
inductive Material : Type
  | lambertian (albedo : Texture)
  | metal (albedo : Vec3) (fuzz : ℚ)
  | dielectric (ir : ℚ)
  | diffuseLight (emit : Texture)
deriving DecidableEq

/-- The `HitRecord` (src/hittable.rs lines 7-15); the material is held
by value in the model. -/
structure HitRecord : Type where
  t : ℚ
  point : Vec3
  normal : Vec3
  uv : Vec2
  face : Face
  material : Material
deriving DecidableEq

/-- The thread-local random source, threaded explicitly: one oracle
stream per sampling helper of the source (`random_on_unit_sphere`,
`random_in_unit_sphere`, `random_in_unit_disk` — each a
rejection-sampling loop whose successive accepted outputs the stream
records — and the uniform draws of `gen`/`gen_bool`), plus a cursor
into each stream. -/
structure Rng : Type where
  unitSphere : ℕ → Vec3
  inUnitSphere : ℕ → Vec3
  inUnitDisk : ℕ → Vec2
  uniform : ℕ → ℚ
  iUS : ℕ
  iIUS : ℕ
  iD : ℕ
  iU : ℕ

def Rng.drawUnitSphere (rng : Rng) : Vec3 × Rng :=
  (rng.unitSphere rng.iUS, { rng with iUS := rng.iUS + 1 })

def Rng.drawInUnitSphere (rng : Rng) : Vec3 × Rng :=
  (rng.inUnitSphere rng.iIUS, { rng with iIUS := rng.iIUS + 1 })

def Rng.drawInUnitDisk (rng : Rng) : Vec2 × Rng :=
  (rng.inUnitDisk rng.iD, { rng with iD := rng.iD + 1 })

def Rng.drawUniform (rng : Rng) : ℚ × Rng :=
  (rng.uniform rng.iU, { rng with iU := rng.iU + 1 })

/-- `is_near_zero` (src/material.rs lines 46-49). -/
def is_near_zero (v : Vec3) : Bool :=
  |v.x| < 1 / 100000000 && |v.y| < 1 / 100000000 && |v.z| < 1 / 100000000

/-- `reflect` (src/material.rs lines 51-53). -/
def reflect (incident normal : Vec3) : Vec3 :=
  incident - (2 * incident.dot normal) • normal

/-- `refract` (src/material.rs lines 55-60). -/
def refract (ops : Ops) (incident normal : Vec3) (irRat : ℚ) : Vec3 :=
  let cos := min (normal.dot (-incident)) 1
  let r_perp := irRat • (incident + cos • normal)
  let r_par := (-(ops.sqrt |1 - r_perp.length_squared|)) • normal
  r_perp + r_par

/-- `reflectance` (src/material.rs lines 62-66), the Schlick
approximation. -/
def reflectance (cos irRat : ℚ) : ℚ :=
  let r0 := (1 - irRat) / (1 + irRat)
  let r0 := r0 * r0
  r0 + (1 - r0) * (1 - cos) ^ (5 : ℕ)

/-- The `Scatter` struct (src/material.rs lines 68-71). -/
structure Scatter : Type where
  ray : Ray
  attenuation : Vec3
deriving DecidableEq

/-- `Material::scatter` (src/material.rs): Lambertian always scatters
(with the near-zero fallback), Metal absorbs when the fuzzed reflection
points into the surface, Dielectric always scatters choosing reflection
on total internal reflection or a Schlick draw (`gen_bool p` modelled
as `draw < p` on a uniform draw), DiffuseLight never scatters. -/
def Material.scatter (ops : Ops) : Material → Ray → HitRecord → Rng → Option Scatter × Rng
  | .lambertian albedo, ray, hit, rng =>
    let s := rng.drawUnitSphere
    let direction := hit.normal + s.1
    let direction := if is_near_zero direction then hit.normal else direction
    (some { ray := { origin := hit.point, direction := direction, time := ray.time }
            attenuation := albedo.value hit.uv hit.point }, s.2)
  | .metal albedo fuzz, ray, hit, rng =>
    let s := rng.drawInUnitSphere
    let reflected := reflect (ray.direction.normalize ops) hit.normal + fuzz • s.1
    if reflected.dot hit.normal > 0 then
      (some { ray := { origin := hit.point, direction := reflected, time := ray.time }
              attenuation := albedo }, s.2)
    else
      (none, s.2)
  | .dielectric ir, ray, hit, rng =>
    let irRat : ℚ := match hit.face with
      | Face.Front => 1 / ir
      | Face.Back => ir
    let unit_direction := ray.direction.normalize ops
    let cos := min (hit.normal.dot (-unit_direction)) 1
    let sin := ops.sqrt (1 - cos * cos)
    let d := rng.drawUniform
    let direction :=
      if sin * irRat > 1 ∨ d.1 < reflectance cos irRat then
        reflect ray.direction hit.normal
      else
        refract ops unit_direction hit.normal irRat
    (some { ray := { origin := hit.point, direction := direction, time := ray.time }
            attenuation := ⟨1, 1, 1⟩ }, d.2)
  | .diffuseLight _, _, _, rng => (none, rng)

/-! ## Hittable variants over ideal arithmetic -/

inductive Hittable : Type
  | sphere (center : Vec3) (radius : ℚ) (material : Material)
  | rect (plane : Plane) (min max : Vec2) (k : ℚ) (material : Material)
  | moving (velocity : Vec3) (inner : Hittable)
  | bvhnode (left right : Hittable) (box : Aabb)
  | group (objs : List Hittable)

/-- `Sphere::get_uv` (src/hittable.rs lines 164-168): spherical
parametrization via the oracle `acos`/`atan2`/`π` (TAU = 2π). -/
def sphere_get_uv (ops : Ops) (point : Vec3) : Vec2 :=
  let latitude := ops.acos point.y
  let longitude := ops.atan2 (-point.z) point.x + ops.pi
  ⟨longitude / (2 * ops.pi), latitude / ops.pi⟩

/-- `Sphere::hit` (src/hittable.rs lines 172-207): half-`b` quadratic,
reject on negative discriminant, prefer the smaller root within
`[t_min, t_max]`, else the larger, else no hit. -/
def sphereHit (ops : Ops) (center : Vec3) (radius : ℚ) (material : Material)
    (ray : Ray) (t_min : ℚ) (t_max : WithTop ℚ) : Option HitRecord :=
  let center_to_origin := ray.origin - center
  let a := ray.direction.length_squared
  let half_b := ray.direction.dot center_to_origin
  let c := center_to_origin.length_squared - radius * radius
  let discriminant := half_b * half_b - a * c
  if discriminant < 0 then none else
  let t1 := (-half_b - ops.sqrt discriminant) / a
  let t2 := (-half_b + ops.sqrt discriminant) / a
  let t? : Option ℚ :=
    if t_min ≤ t1 ∧ ((t1 : ℚ) : WithTop ℚ) ≤ t_max then some t1
    else if t_min ≤ t2 ∧ ((t2 : ℚ) : WithTop ℚ) ≤ t_max then some t2
    else none
  match t? with
  | none => none
  | some t =>
    let point := ray.at t
    let outward_normal := (point - center).sdiv radius
    let nf := compute_face_normal ray outward_normal
    some { t := t, point := point, normal := nf.1, uv := sphere_get_uv ops outward_normal
           face := nf.2, material := material }

/-- `Rect::hit` (src/hittable.rs lines 318-351) over ideal arithmetic. -/
def rectHit (plane : Plane) (rmin rmax : Vec2) (k : ℚ) (material : Material)
    (ray : Ray) (t_min : ℚ) (t_max : WithTop ℚ) : Option HitRecord :=
  let t := match plane with
    | Plane.XY => (k - ray.origin.z) / ray.direction.z
    | Plane.YZ => (k - ray.origin.x) / ray.direction.x
    | Plane.ZX => (k - ray.origin.y) / ray.direction.y
  if t < t_min ∨ t_max < ((t : ℚ) : WithTop ℚ) then none else
  let point := ray.at t
  let xy : Vec2 := match plane with
    | Plane.XY => ⟨point.x, point.y⟩
    | Plane.YZ => ⟨point.y, point.z⟩
    | Plane.ZX => ⟨point.z, point.x⟩
  if xy.x < rmin.x ∨ xy.y < rmin.y ∨ xy.x > rmax.x ∨ xy.y > rmax.y then none else
  let uv : Vec2 := ⟨(xy.x - rmin.x) / (rmax.x - rmin.x), (xy.y - rmin.y) / (rmax.y - rmin.y)⟩
  let outward_normal : Vec3 := match plane with
    | Plane.XY => ⟨0, 0, 1⟩
    | Plane.YZ => ⟨1, 0, 0⟩
    | Plane.ZX => ⟨0, 1, 0⟩
  let nf := compute_face_normal ray outward_normal
  some { t := t, point := point, normal := nf.1, uv := uv, face := nf.2
         material := material }

/-- `Iterator::min_by` over hit records by `t` (ideal arithmetic: every
`t` is finite, `partial_cmp` is `compare`, `is_finite` is `true`). -/
def sliceMinBy : List HitRecord → Option HitRecord
  | [] => none
  | x :: xs =>
    some (xs.foldl (fun acc y => if compare acc.t y.t = Ordering.gt then y else acc) x)

/-- `<[T] as Hittable>::hit` (src/hittable.rs lines 108-118) applied to
the member results (the `is_finite` filter keeps everything: every
ideal `ℚ` parameter models a finite double). -/
def sliceHit (results : List (Option HitRecord)) : Option HitRecord :=
  sliceMinBy ((results.filterMap id).filter (fun _ => true))

/-- `Hittable::hit` for every variant; `Moving::hit` (src/hittable.rs
lines 224-235) shifts the ray origin back by `velocity * time` and the
hit point forward by the same amount; `BvhNode::hit` (lines 282-296)
as in the `F` model; `World::hit` (lines 146-149) is the slice hit of
the member results. -/
def Hittable.hit (ops : Ops) : Hittable → Ray → ℚ → WithTop ℚ → Option HitRecord
  | .sphere c r m, ray, t_min, t_max => sphereHit ops c r m ray t_min t_max
  | .rect p rmin rmax k m, ray, t_min, t_max => rectHit p rmin rmax k m ray t_min t_max
  | .moving velocity inner, ray, t_min, t_max =>
    let inner_ray : Ray :=
      { origin := ray.origin - ray.time • velocity, direction := ray.direction
        time := ray.time }
    (inner.hit ops inner_ray t_min t_max).map fun h =>
      { h with point := h.point + ray.time • velocity }
  | .bvhnode left right box, ray, t_min, t_max =>
    if !(box.is_hit_by ray t_min t_max) then none else
    let left_hit := left.hit ops ray t_min t_max
    let upper_bound := (left_hit.map (fun h => min ((h.t : ℚ) : WithTop ℚ) t_max)).getD t_max
    let right_hit := right.hit ops ray t_min upper_bound
    right_hit.or left_hit
  | .group objs, ray, t_min, t_max =>
    sliceHit (objs.attach.map (fun o => o.1.hit ops ray t_min t_max))
termination_by h _ _ _ => sizeOf h
decreasing_by
  all_goals first
    | (simp_wf; omega)
    | (simp_wf; have := List.sizeOf_lt_of_mem o.2; omega)
    | simp_wf

/-! ## The integrator (src/main.rs) -/

/-- The `World` (src/hittable.rs lines 130-154): an owned list of
hittables whose hit is the slice aggregate. -/
def World : Type := List Hittable

def World.hit (ops : Ops) (w : World) (ray : Ray) (t_min : ℚ) (t_max : WithTop ℚ) :
    Option HitRecord :=
  (Hittable.group w).hit ops ray t_min t_max

/-- The body of one `ray_color` loop iteration (src/main.rs lines
28-30): `world.hit(&ray, 0.001, f64::INFINITY).and_then(|hit|
hit.material.scatter(&ray, &hit))`. -/
def maybeScatter (ops : Ops) (w : World) (ray : Ray) (rng : Rng) : Option Scatter × Rng :=
  match w.hit ops ray (1 / 1000) ⊤ with
  | none => (none, rng)
  | some h => h.material.scatter ops ray h rng

/-- The `for _ in 0..depth` loop of `ray_color` (src/main.rs lines
27-41): scatter and accumulate attenuation until a miss/absorption
breaks or the depth budget is exhausted. -/
def bounceLoop (ops : Ops) (w : World) : ℕ → Ray → Vec3 → Rng → Ray × Vec3 × Rng
  | 0, ray, color, rng => (ray, color, rng)
  | d + 1, ray, color, rng =>
    match maybeScatter ops w ray rng with
    | (some s, rng') => bounceLoop ops w d s.ray (color * s.attenuation) rng'
    | (none, rng') => (ray, color, rng')

/-- The sky gradient applied after the loop (src/main.rs lines 42-44):
`(1-t)*white + t*(0.5,0.7,1.0)` with `t = 0.5*(unit.y + 1)`. -/
def ambientColor (ops : Ops) (r : Ray) : Vec3 :=
  let unit := r.direction.normalize ops
  let t := (1 / 2 : ℚ) * (unit.y + 1)
  (1 - t) • (⟨1, 1, 1⟩ : Vec3) + t • (⟨1 / 2, 7 / 10, 1⟩ : Vec3)

/-- `ray_color` (src/main.rs lines 24-46), with the random source
threaded through and returned. -/
def ray_color (ops : Ops) (ray : Ray) (w : World) (depth : ℕ) (rng : Rng) : Vec3 × Rng :=
  let r := bounceLoop ops w depth ray 1 rng
  (ambientColor ops r.1 * r.2.1, r.2.2)

/-- Specification-side unrolling of the bounce recursion: the scatter
chain of length `d` starting at `ray`, returning the final ray, the
product of the scatter attenuations, and the advanced random source —
or `none` as soon as a bounce fails to resolve (miss or absorption). -/
def scatterSeq (ops : Ops) (w : World) : ℕ → Ray → Rng → Option (Ray × Vec3 × Rng)
  | 0, ray, rng => some (ray, 1, rng)
  | d + 1, ray, rng =>
    match maybeScatter ops w ray rng with
    | (some s, rng') =>
      (scatterSeq ops w d s.ray rng').map fun r => (r.1, s.attenuation * r.2.1, r.2.2)
    | (none, _) => none

/-! ## Camera (src/camera.rs) -/

/-- `CameraDescriptor` (src/camera.rs lines 19-28): note there is no
shutter-interval field. -/
structure CameraDescriptor : Type where
  vfov : ℚ
  aspect : ℚ
  origin : Vec3
  look_at : Vec3
  vup : Vec3
  aperture : ℚ
  focus_distance : Option ℚ
deriving DecidableEq

/-- `Camera` (src/camera.rs lines 44-52). -/
structure Camera : Type where
  origin : Vec3
  lower_left : Vec3
  horizontal : Vec3
  vertical : Vec3
  u : Vec3
  v : Vec3
  lens_radius : ℚ
deriving DecidableEq

/-- `Camera::new` (src/camera.rs lines 55-86); `to_radians` is
`deg * π / 180` with the oracle `π`. -/
def Camera.new (ops : Ops) (desc : CameraDescriptor) : Camera :=
  let theta := desc.vfov * ops.pi / 180
  let hh := ops.tan (theta / 2)
  let fd := desc.focus_distance.getD (desc.origin.distance ops desc.look_at)
  let viewport_height := 2 * hh
  let viewport_width := desc.aspect * viewport_height
  let w := (desc.origin - desc.look_at).normalize ops
  let u := (desc.vup.cross w).normalize ops
  let v := w.cross u
  let horizontal := (fd * viewport_width) • u
  let vertical := (fd * viewport_height) • v
  let outward := fd • w
  { origin := desc.origin
    lower_left := (-(horizontal + vertical)).sdiv 2 - outward
    horizontal := horizontal
    vertical := vertical
    u := u
    v := v
    lens_radius := desc.aperture / 2 }

/-- `Camera::get_ray` (src/camera.rs lines 88-97).  The source builds
`Ray { origin, direction }` without the `time` field that `ray.rs`'s
`Ray` requires (no shutter time is sampled anywhere and the descriptor
has no shutter field); the missing field is modelled as the default 0. -/
def Camera.get_ray (cam : Camera) (u v : ℚ) (rng : Rng) : Ray × Rng :=
  let d := rng.drawInUnitDisk
  let rd : Vec2 := ⟨cam.lens_radius * d.1.x, cam.lens_radius * d.1.y⟩
  let offset := rd.x • cam.u + rd.y • cam.v
  ({ origin := cam.origin + offset
     direction := cam.lower_left + u • cam.horizontal + v • cam.vertical - offset
     time := 0 }, d.2)

/-! ## The render loops of `main` (src/main.rs lines 224-242) -/

def Vec3.map (f : ℚ → ℚ) (a : Vec3) : Vec3 := ⟨f a.x, f a.y, f a.z⟩

/-- One pixel: average `spp` jittered samples and apply the
`powf(0.5)` gamma via the oracle square root. -/
def renderPixel (ops : Ops) (w : World) (cam : Camera) (width height : ℕ)
    (spp depth : ℕ) (x up_y : ℕ) (rng : Rng) : Vec3 × Rng :=
  let sample := fun (acc : Vec3 × Rng) (_ : ℕ) =>
    let du := acc.2.drawUniform
    let dv := du.2.drawUniform
    let u := ((x : ℚ) + du.1) / (width : ℚ)
    let v := ((up_y : ℚ) + dv.1) / (height : ℚ)
    let r := cam.get_ray u v dv.2
    let c := ray_color ops r.1 w depth r.2
    (acc.1 + c.1, c.2)
  let s := (List.range spp).foldl sample (0, rng)
  ((s.1.sdiv (spp : ℚ)).map ops.sqrt, s.2)

/-- The full frame, row-major top row first, threading the random
source exactly as the nested loops of `main` do. -/
def renderImage (ops : Ops) (w : World) (cam : Camera) (width height spp depth : ℕ)
    (rng : Rng) : List Vec3 × Rng :=
  (List.range height).foldl
    (fun (acc : List Vec3 × Rng) (y : ℕ) =>
      let up_y := height - 1 - y
      (List.range width).foldl
        (fun (acc2 : List Vec3 × Rng) (x : ℕ) =>
          let p := renderPixel ops w cam width height spp depth x up_y acc2.2
          (acc2.1 ++ [p.1], p.2))
        acc)
    ([], rng)

/-! ## Facts about the face-normal convention and hit records -/

theorem Vec3.dot_comm (a b : Vec3) : a.dot b = b.dot a := by
  unfold Vec3.dot; ring

theorem Vec3.neg_dot (a b : Vec3) : (-a).dot b = -(a.dot b) := by
  simp only [Vec3.neg_def, Vec3.dot]; ring

theorem cfn_dot_nonpos (ray : Ray) (outward : Vec3) :
    (compute_face_normal ray outward).1.dot ray.direction ≤ 0 := by
  unfold compute_face_normal
  split_ifs with h
  · rw [Vec3.dot_comm]; exact le_of_lt h
  · rw [Vec3.neg_dot, Vec3.dot_comm]
    push_neg at h
    exact neg_nonpos.mpr h

theorem cfn_front_iff (ray : Ray) (outward : Vec3) :
    (compute_face_normal ray outward).2 = Face.Front ↔ ray.direction.dot outward < 0 := by
  unfold compute_face_normal
  split_ifs with h
  · simpa using h
  · simpa using h

theorem cfn_dir_congr {r1 r2 : Ray} (h : r1.direction = r2.direction) (o : Vec3) :
    compute_face_normal r1 o = compute_face_normal r2 o := by
  unfold compute_face_normal
  rw [h]

theorem foldl_pick_mem {α : Type} (f : α → α → α) (hf : ∀ a b, f a b = a ∨ f a b = b) :
    ∀ (xs : List α) (x : α), xs.foldl f x ∈ x :: xs := by
  intro xs
  induction xs with
  | nil => intro x; simp
  | cons y ys ih =>
    intro x
    rw [List.foldl_cons]
    rcases List.mem_cons.mp (ih (f x y)) with h | h
    · rcases hf x y with h2 | h2 <;> rw [h, h2]
      · exact List.mem_cons_self _ _
      · exact List.mem_cons_of_mem _ (List.mem_cons_self _ _)
    · exact List.mem_cons_of_mem _ (List.mem_cons_of_mem _ h)

theorem sliceMinBy_mem {l : List HitRecord} {rec : HitRecord}
    (h : sliceMinBy l = some rec) : rec ∈ l := by
  cases l with
  | nil => exact absurd h (by simp [sliceMinBy])
  | cons x xs =>
    have : rec = xs.foldl (fun acc y => if compare acc.t y.t = Ordering.gt then y else acc) x := by
      injection h.symm
    rw [this]
    exact foldl_pick_mem _ (fun a b => by by_cases hc : compare a.t b.t = Ordering.gt <;> simp [hc])
      xs x

theorem sliceHit_mem {results : List (Option HitRecord)} {rec : HitRecord}
    (h : sliceHit results = some rec) : some rec ∈ results := by
  have hm := sliceMinBy_mem h
  rw [List.mem_filter] at hm
  exact List.mem_filterMap.mp hm.1 |>.elim (fun o ho => by
    obtain ⟨homem, hid⟩ := ho
    cases o with
    | none => exact absurd hid (by simp)
    | some r => rw [show r = rec from by injection hid]  at homem; exact homem)

theorem or_eq_some_cases {x y : Option HitRecord} {rec : HitRecord}
    (h : x.or y = some rec) : x = some rec ∨ y = some rec := by
  cases x with
  | none => exact Or.inr (by simpa using h)
  | some r => exact Or.inl (by simpa using h)

/-- Core record invariants, proved by structural recursion over the
hittable tree: every reported hit satisfies `ray.at(hit.t) == hit.point`
and the front-face convention (the stored normal opposes the querying
ray, and the normal/face pair is produced by `compute_face_normal`
from some geometric outward normal). -/
theorem hit_record_props (ops : Ops) :
    ∀ (h : Hittable) (ray : Ray) (t_min : ℚ) (t_max : WithTop ℚ) (rec : HitRecord),
      h.hit ops ray t_min t_max = some rec →
      (ray.at rec.t = rec.point ∧ rec.normal.dot ray.direction ≤ 0 ∧
        ∃ outward, (rec.normal, rec.face) = compute_face_normal ray outward)
  | .sphere c r m => by
    intro ray t_min t_max rec hrec
    unfold Hittable.hit sphereHit at hrec
    dsimp only at hrec
    split at hrec <;> try exact Option.noConfusion hrec
    split at hrec <;> try exact Option.noConfusion hrec
    all_goals try (injection hrec with hr
                   subst hr)
    all_goals exact ⟨rfl, cfn_dot_nonpos ray _, _, rfl⟩
  | .rect p rmin rmax k m => by
    intro ray t_min t_max rec hrec
    unfold Hittable.hit rectHit at hrec
    cases p <;> (
      dsimp only at hrec
      split at hrec <;> try exact Option.noConfusion hrec
      split at hrec <;> try exact Option.noConfusion hrec
      all_goals try (injection hrec with hr
                     subst hr)
      all_goals exact ⟨rfl, cfn_dot_nonpos ray _, _, rfl⟩)
  | .moving velocity inner => by
    intro ray t_min t_max rec hrec
    unfold Hittable.hit at hrec
    obtain ⟨rec', hrec', hmap⟩ := Option.map_eq_some'.mp hrec
    obtain ⟨hat, hdot, outward, hcfn⟩ := hit_record_props ops inner _ t_min t_max rec' hrec'
    subst hmap
    refine ⟨?_, hdot, outward, hcfn.trans (cfn_dir_congr rfl outward)⟩
    show ray.at rec'.t = rec'.point + ray.time • velocity
    rw [← hat]
    show ray.origin + rec'.t • ray.direction
      = ray.origin - ray.time • velocity + rec'.t • ray.direction + ray.time • velocity
    simp only [Vec3.add_def, Vec3.sub_def, Vec3.smul_def, Vec3.mk.injEq]
    refine ⟨by ring, by ring, by ring⟩
  | .bvhnode left right box => by
    intro ray t_min t_max rec hrec
    unfold Hittable.hit at hrec
    split at hrec
    · exact absurd hrec (by simp)
    · rcases or_eq_some_cases hrec with h | h
      · exact hit_record_props ops right ray t_min _ rec h
      · exact hit_record_props ops left ray t_min t_max rec h
  | .group objs => by
    intro ray t_min t_max rec hrec
    unfold Hittable.hit at hrec
    have hmem := sliceHit_mem hrec
    obtain ⟨o, homem, hohit⟩ := List.mem_map.mp hmem
    exact hit_record_props ops o.1 ray t_min t_max rec hohit
termination_by h => sizeOf h
decreasing_by
  all_goals first
    | (simp_wf; omega)
    | (simp_wf; have := List.sizeOf_lt_of_mem o.2; omega)
    | simp_wf

/-! ## Claim theorems over the ideal model -/

/-- The claim's quadratic quantities for `Sphere::hit`:
`a = |D|²`, `half_b = D·(O−C)`, `c = |O−C|² − r²`, `disc = half_b² − a·c`,
and the two roots `(−half_b ∓ √disc)/a`. -/
def sphere_a (ray : Ray) : ℚ := ray.direction.length_squared

def sphere_half_b (center : Vec3) (ray : Ray) : ℚ :=
  ray.direction.dot (ray.origin - center)

def sphere_c (center : Vec3) (radius : ℚ) (ray : Ray) : ℚ :=
  (ray.origin - center).length_squared - radius * radius

def sphere_disc (center : Vec3) (radius : ℚ) (ray : Ray) : ℚ :=
  sphere_half_b center ray * sphere_half_b center ray -
    sphere_a ray * sphere_c center radius ray

def sphere_t1 (ops : Ops) (center : Vec3) (radius : ℚ) (ray : Ray) : ℚ :=
  (-sphere_half_b center ray - ops.sqrt (sphere_disc center radius ray)) / sphere_a ray

def sphere_t2 (ops : Ops) (center : Vec3) (radius : ℚ) (ray : Ray) : ℚ :=
  (-sphere_half_b center ray + ops.sqrt (sphere_disc center radius ray)) / sphere_a ray

/-- C5: `Sphere::hit` returns no hit when `disc = half_b² − a·c < 0`;
otherwise it selects the smaller root `(−half_b − √disc)/a` when that
lies in `[t_min, t_max]`, else the larger root `(−half_b + √disc)/a`
when that lies in the interval, and no hit when neither does. -/
theorem sphere_hit_root_selection (ops : Ops) (center : Vec3) (radius : ℚ)
    (m : Material) (ray : Ray) (t_min : ℚ) (t_max : WithTop ℚ) :
    (sphere_disc center radius ray < 0 →
      sphereHit ops center radius m ray t_min t_max = none) ∧
    (0 ≤ sphere_disc center radius ray →
      t_min ≤ sphere_t1 ops center radius ray ∧
        ((sphere_t1 ops center radius ray : ℚ) : WithTop ℚ) ≤ t_max →
      (sphereHit ops center radius m ray t_min t_max).map HitRecord.t
        = some (sphere_t1 ops center radius ray)) ∧
    (0 ≤ sphere_disc center radius ray →
      ¬(t_min ≤ sphere_t1 ops center radius ray ∧
        ((sphere_t1 ops center radius ray : ℚ) : WithTop ℚ) ≤ t_max) →
      (t_min ≤ sphere_t2 ops center radius ray ∧
        ((sphere_t2 ops center radius ray : ℚ) : WithTop ℚ) ≤ t_max) →
      (sphereHit ops center radius m ray t_min t_max).map HitRecord.t
        = some (sphere_t2 ops center radius ray)) ∧
    (0 ≤ sphere_disc center radius ray →
      ¬(t_min ≤ sphere_t1 ops center radius ray ∧
        ((sphere_t1 ops center radius ray : ℚ) : WithTop ℚ) ≤ t_max) →
      ¬(t_min ≤ sphere_t2 ops center radius ray ∧
        ((sphere_t2 ops center radius ray : ℚ) : WithTop ℚ) ≤ t_max) →
      sphereHit ops center radius m ray t_min t_max = none) := by
  unfold sphereHit
  dsimp only
  simp only [sphere_disc, sphere_a, sphere_half_b, sphere_c, sphere_t1, sphere_t2]
  refine ⟨?_, ?_, ?_, ?_⟩
  · intro hd
    rw [if_pos hd]
  · intro hd h1
    rw [if_neg (not_lt.mpr hd), if_pos h1]
    rfl
  · intro hd h1 h2
    rw [if_neg (not_lt.mpr hd), if_neg h1, if_pos h2]
    rfl
  · intro hd h1 h2
    rw [if_neg (not_lt.mpr hd), if_neg h1, if_neg h2]

/-- C4: the hit-record orientation convention: for every record
produced by any variant (sphere of positive or negative radius,
rectangle on any plane, moving wrapper, BVH node or list), the stored
normal opposes the querying ray (`normal · direction ≤ 0`) and the
normal/face pair comes from `compute_face_normal` applied to a
geometric outward normal, whose `Front` flag holds exactly when that
outward normal opposed the ray. -/
theorem front_face_convention (ops : Ops) :
    (∀ (ray : Ray) (outward : Vec3),
      (compute_face_normal ray outward).2 = Face.Front ↔ ray.direction.dot outward < 0) ∧
    ∀ (h : Hittable) (ray : Ray) (t_min : ℚ) (t_max : WithTop ℚ) (rec : HitRecord),
      h.hit ops ray t_min t_max = some rec →
      rec.normal.dot ray.direction ≤ 0 ∧
        ∃ outward, (rec.normal, rec.face) = compute_face_normal ray outward :=
  ⟨fun ray outward => cfn_front_iff ray outward,
   fun h ray t_min t_max rec hrec => (hit_record_props ops h ray t_min t_max rec hrec).2⟩

/-- C8: every reported hit of every variant — including the `Moving`
wrapper, which offsets the inner ray's origin backward by
`velocity * time` and the hit point forward by the same amount —
satisfies `ray.at(hit.t) == hit.point` for the original querying ray. -/
theorem ray_at_hit_point (ops : Ops) :
    ∀ (h : Hittable) (ray : Ray) (t_min : ℚ) (t_max : WithTop ℚ) (rec : HitRecord),
      h.hit ops ray t_min t_max = some rec → ray.at rec.t = rec.point :=
  fun h ray t_min t_max rec hrec => (hit_record_props ops h ray t_min t_max rec hrec).1

/-- C6: `Dielectric::scatter` always returns a continuation with
attenuation exactly `(1,1,1)`; the scattered direction is the
reflection when total internal reflection applies (`sin·ratio > 1`) or
the Schlick draw succeeds, and the refraction otherwise. -/
theorem dielectric_always_scatters (ops : Ops) (ir : ℚ) (ray : Ray)
    (h : HitRecord) (rng : Rng) :
    ∃ s rng', Material.scatter ops (Material.dielectric ir) ray h rng = (some s, rng') ∧
      s.attenuation = ⟨1, 1, 1⟩ ∧
      s.ray.direction =
        (if (let irRat : ℚ := match h.face with
              | Face.Front => 1 / ir
              | Face.Back => ir
             let unit_direction := ray.direction.normalize ops
             let cos := min (h.normal.dot (-unit_direction)) 1
             ops.sqrt (1 - cos * cos) * irRat > 1 ∨
               (rng.drawUniform).1 < reflectance cos irRat) then
          reflect ray.direction h.normal
        else
          refract ops (ray.direction.normalize ops) h.normal
            (match h.face with
              | Face.Front => 1 / ir
              | Face.Back => ir)) :=
  ⟨_, _, rfl, rfl, rfl⟩

/-- C7 (supporting theorem for the camera/shutter code bug):
`Camera::get_ray` never samples a shutter time — the source constructs
the ray without the `time` field `ray.rs` requires and the descriptor
has no shutter-interval field, so the modelled ray time is the constant
default 0 for every camera, pixel coordinate and random state. -/
theorem get_ray_time_constant (cam : Camera) (u v : ℚ) (rng : Rng) :
    ((cam.get_ray u v rng).1).time = 0 := rfl

/-- C9: with the random source threaded explicitly, rendering is a
pure function: two renders of the same world and camera from equal
random streams produce bit-identical pixel buffers. -/
theorem render_deterministic (ops : Ops) (w : World) (cam : Camera)
    (width height spp depth : ℕ) (rng1 rng2 : Rng) (h : rng1 = rng2) :
    renderImage ops w cam width height spp depth rng1
      = renderImage ops w cam width height spp depth rng2 := by
  rw [h]

/-! ## Concrete scene for C2

One Lambertian sphere enclosing the ray origin, so the bounce loop
scatters at every step and exhausts the depth budget without resolving.
The oracle `opsCE` agrees with the `f64` functions at every point the
run evaluates them (`√1 = 1`, `√4 = 2`; the `acos`/`atan2`/`π` values
only feed the unused `uv` coordinates), and the random stream's first
`random_on_unit_sphere` output is the unit vector `(0,0,-1)`. -/

def opsCE : Ops :=
  { sqrt := fun q => if q = 1 then 1 else if q = 4 then 2 else 0
    tan := fun _ => 0
    acos := fun _ => 0
    atan2 := fun _ _ => 0
    pi := 0 }

def rngCE : Rng :=
  { unitSphere := fun _ => ⟨0, 0, -1⟩
    inUnitSphere := fun _ => ⟨0, 0, 0⟩
    inUnitDisk := fun _ => ⟨0, 0⟩
    uniform := fun _ => 0
    iUS := 0
    iIUS := 0
    iD := 0
    iU := 0 }

def matCE : Material := Material.lambertian (Texture.solid ⟨1/2, 1/2, 1/2⟩)

def sphereCE : Hittable := Hittable.sphere ⟨0, 0, 0⟩ 1 matCE

def worldCE : World := [sphereCE]

def rayCE2 : Ray := { origin := ⟨0, 0, 0⟩, direction := ⟨0, 0, 1⟩, time := 0 }

def recCE2 : HitRecord :=
  { t := 1, point := ⟨0, 0, 1⟩, normal := ⟨0, 0, -1⟩, uv := ⟨0, 0⟩
    face := Face.Back, material := matCE }

theorem sphereHit_CE_eval :
    sphereHit opsCE ⟨0, 0, 0⟩ 1 matCE rayCE2 (1/1000) ⊤ = some recCE2 := by
  norm_num [sphereHit, opsCE, rayCE2, recCE2, Ray.at, Vec3.dot, Vec3.length_squared,
    Vec3.sub_def, Vec3.add_def, Vec3.smul_def, Vec3.sdiv, Vec3.neg_def,
    compute_face_normal, sphere_get_uv, le_top]

theorem hit_sphereCE_eval :
    sphereCE.hit opsCE rayCE2 (1/1000) ⊤ = some recCE2 := by
  unfold sphereCE Hittable.hit
  exact sphereHit_CE_eval

theorem worldCE_hit_eval :
    World.hit opsCE worldCE rayCE2 (1/1000) ⊤ = some recCE2 := by
  unfold World.hit Hittable.hit worldCE
  rw [List.attach_map_val [sphereCE] (fun o => o.hit opsCE rayCE2 (1/1000) ⊤)]
  rw [List.map_cons, List.map_nil, hit_sphereCE_eval]
  rfl

def scatCE : Scatter :=
  { ray := { origin := ⟨0, 0, 1⟩, direction := ⟨0, 0, -2⟩, time := 0 }
    attenuation := ⟨1/2, 1/2, 1/2⟩ }

def rngCE1 : Rng := { rngCE with iUS := 1 }

theorem maybeScatter_CE_eval :
    maybeScatter opsCE worldCE rayCE2 rngCE = (some scatCE, rngCE1) := by
  unfold maybeScatter
  rw [worldCE_hit_eval]
  show Material.scatter opsCE matCE rayCE2 recCE2 rngCE = _
  norm_num [Material.scatter, matCE, recCE2, rayCE2, Rng.drawUnitSphere, rngCE,
    is_near_zero, Vec3.add_def, Texture.value, scatCE, rngCE1]

theorem scatterSeq_CE_eval :
    scatterSeq opsCE worldCE 1 rayCE2 rngCE = some (scatCE.ray, ⟨1/2, 1/2, 1/2⟩, rngCE1) := by
  simp only [scatterSeq, maybeScatter_CE_eval, Option.map_some', Vec3.mul_one_v]
  rfl

/-! ## C2: the depth-exhaustion behavior of `ray_color` -/

theorem bounceLoop_scatterSeq (ops : Ops) (w : World) :
    ∀ (d : ℕ) (ray : Ray) (color : Vec3) (rng : Rng) (fr : Ray) (att : Vec3) (rng' : Rng),
      scatterSeq ops w d ray rng = some (fr, att, rng') →
      bounceLoop ops w d ray color rng = (fr, color * att, rng') := by
  intro d
  induction d with
  | zero =>
    intro ray color rng fr att rng' h
    unfold scatterSeq at h
    simp only [Option.some.injEq, Prod.mk.injEq] at h
    obtain ⟨h1, h2, h3⟩ := h
    unfold bounceLoop
    rw [← h1, ← h3, ← h2, Vec3.mul_one_v]
  | succ n ih =>
    intro ray color rng fr att rng' h
    unfold scatterSeq at h
    unfold bounceLoop
    cases hms : maybeScatter ops w ray rng with
    | mk os rng2 =>
      rw [hms] at h
      cases os with
      | none => exact absurd h (by simp)
      | some s =>
        simp only at h ⊢
        obtain ⟨r2, hr2, hmap⟩ := Option.map_eq_some'.mp h
        have hfr : r2.1 = fr := congrArg (fun p => p.1) hmap
        have hatt : s.attenuation * r2.2.1 = att := congrArg (fun p => p.2.1) hmap
        have hrng : r2.2.2 = rng' := congrArg (fun p => p.2.2) hmap
        have := ih s.ray (color * s.attenuation) rng2 r2.1 r2.2.1 r2.2.2
          (by rw [hr2])
        rw [this, hfr, hrng, ← hatt, Vec3.mul_assoc_v]

/-- C2 (amended): when the bounce loop exhausts `max_depth` bounces
without resolving (every step scatters), `ray_color` does NOT cut the
continuation to zero: it returns the ambient sky gradient evaluated at
the last scattered ray multiplied by the accumulated attenuation.  (The
unamended claim — zero contribution, no background/ambient term for the
unresolved path — is refuted by `ray_color_depth_cutoff_fails`.) -/
theorem ray_color_exhaustion (ops : Ops) (w : World) (depth : ℕ) (ray : Ray)
    (rng : Rng) (fr : Ray) (att : Vec3) (rng' : Rng)
    (h : scatterSeq ops w depth ray rng = some (fr, att, rng')) :
    (ray_color ops ray w depth rng).1 = ambientColor ops fr * att := by
  unfold ray_color
  rw [bounceLoop_scatterSeq ops w depth ray 1 rng fr att rng' h]
  dsimp only
  rw [Vec3.one_mul_v]

/-- Witness for `ray_color_exhaustion` at the concrete one-sphere
scene, depth 1. -/
theorem ray_color_exhaustion_witness :
    (ray_color opsCE rayCE2 worldCE 1 rngCE).1
      = ambientColor opsCE scatCE.ray * ⟨1/2, 1/2, 1/2⟩ :=
  ray_color_exhaustion opsCE worldCE 1 rayCE2 rngCE scatCE.ray ⟨1/2, 1/2, 1/2⟩ rngCE1
    scatterSeq_CE_eval

/-- C2 counterexample: in the one-sphere scene the loop exhausts
`max_depth = 1` without a miss or absorption (the Lambertian always
scatters), no radiance is accumulated inside the loop (this integrator
has no emission term), yet `ray_color` returns `(1/2, 1/2, 1/2)` — the
ambient gradient times the accumulated attenuation — instead of the
zero contribution the claim requires for the unresolved path. -/
theorem ray_color_depth_cutoff_fails :
    (ray_color opsCE rayCE2 worldCE 1 rngCE).1 = ⟨3/8, 17/40, 1/2⟩ ∧
      ((⟨3/8, 17/40, 1/2⟩ : Vec3) ≠ (0 : Vec3)) := by
  constructor
  · rw [ray_color_exhaustion opsCE worldCE 1 rayCE2 rngCE scatCE.ray ⟨1/2, 1/2, 1/2⟩ rngCE1
      scatterSeq_CE_eval]
    norm_num [ambientColor, opsCE, scatCE, Vec3.normalize, Vec3.length,
      Vec3.length_squared, Vec3.dot, Vec3.sdiv, Vec3.smul_def, Vec3.add_def,
      Vec3.mul_def, Vec3.sub_def]
  · intro h
    rw [Vec3.zero_def] at h
    have := congrArg Vec3.x h
    norm_num at this

/-! ## Witnesses for the ideal-model claim theorems -/

/-- Witness for `front_face_convention` at the concrete sphere hit. -/
theorem front_face_convention_witness :
    ((compute_face_normal rayCE2 ⟨0, 0, 1⟩).2 = Face.Front ↔
      rayCE2.direction.dot ⟨0, 0, 1⟩ < 0) ∧
    (recCE2.normal.dot rayCE2.direction ≤ 0 ∧
      ∃ outward, (recCE2.normal, recCE2.face) = compute_face_normal rayCE2 outward) :=
  ⟨(front_face_convention opsCE).1 rayCE2 ⟨0, 0, 1⟩,
   (front_face_convention opsCE).2 sphereCE rayCE2 (1/1000) ⊤ recCE2 hit_sphereCE_eval⟩

/-- Witness for `ray_at_hit_point` at the concrete sphere hit. -/
theorem ray_at_hit_point_witness : rayCE2.at recCE2.t = recCE2.point :=
  ray_at_hit_point opsCE sphereCE rayCE2 (1/1000) ⊤ recCE2 hit_sphereCE_eval

/-- Witness for `sphere_hit_root_selection`: for the concrete ray from
the sphere's center the smaller root is out of range and the larger is
selected. -/
theorem sphere_hit_root_selection_witness :
    (sphereHit opsCE ⟨0, 0, 0⟩ 1 matCE rayCE2 (1/1000) ⊤).map HitRecord.t
      = some (sphere_t2 opsCE ⟨0, 0, 0⟩ 1 rayCE2) :=
  (sphere_hit_root_selection opsCE ⟨0, 0, 0⟩ 1 matCE rayCE2 (1/1000) ⊤).2.2.1
    (by norm_num [sphere_disc, sphere_half_b, sphere_a, sphere_c, rayCE2,
      Vec3.dot, Vec3.sub_def, Vec3.length_squared])
    (by norm_num [sphere_t1, sphere_disc, sphere_half_b, sphere_a, sphere_c,
      opsCE, rayCE2, Vec3.dot, Vec3.sub_def, Vec3.length_squared])
    (by norm_num [sphere_t2, sphere_disc, sphere_half_b, sphere_a, sphere_c,
      opsCE, rayCE2, Vec3.dot, Vec3.sub_def, Vec3.length_squared, le_top])

/-- The default camera descriptor of src/camera.rs lines 30-42. -/
def descCE : CameraDescriptor :=
  { vfov := 90, aspect := 16/9, origin := ⟨0, 0, 0⟩, look_at := ⟨0, 0, -1⟩
    vup := ⟨0, 1, 0⟩, aperture := 0, focus_distance := none }

def camCE : Camera := Camera.new opsCE descCE

/-- Witness for `render_deterministic` at a concrete 1x1 render. -/
theorem render_deterministic_witness :
    renderImage opsCE worldCE camCE 1 1 1 1 rngCE
      = renderImage opsCE worldCE camCE 1 1 1 1 rngCE :=
  render_deterministic opsCE worldCE camCE 1 1 1 1 rngCE rngCE rfl

end Ideal

end Grayt
